import Mathlib

/-!
Verification of the mesh-network graph store (`src-tauri/src/graph_p.rs`) and the
ingestion helpers (`src-tauri/src/ipc/helpers.rs`).

Modelling conventions:
* `f64` edge/degree weights are modelled over the exact domain `ℤ`; the
  operations the claims involve (addition, subtraction, negation, doubling)
  are ring operations, exact in `f64` as well for the inputs discussed, and
  none of the claims turns on fractional or rounded values.
* Rust panics (`unwrap`, out-of-range `Vec` indexing, `expect`,
  `StableGraph::add_edge` on a removed node) are modelled by `Option`
  (`none` = panic) for queries and by `RustResult.panicked` for mutations.
* `print_error_and_return` early exits are `RustResult.logged msg state`.
* petgraph's `StableUnGraph` is modelled with a node-slot map and an edge list
  kept most-recent-first, matching petgraph's adjacency lists (new edges are
  prepended), so `find_edge_undirected` and `neighbors_undirected` orderings
  are faithful.  petgraph reuses freed slots through a free list; indices here
  are never reused, which no claim depends on.
-/

namespace Meshtastic

/-- Weights: `f64` in Rust, modelled over the exact domain `ℤ`. -/
abbrev Weight := ℤ

/-- `Node` from graph_p.rs: string name plus derived weighted degree. -/
structure Node where
  name : String
  optimal_weighted_degree : Weight
deriving DecidableEq, Repr

/-- One petgraph edge: stable edge id, the two endpoints in insertion order
(petgraph `edge.node[0]`, `edge.node[1]`), and the `weight` field of the
repository's `Edge` struct stored as the petgraph edge weight.  The repo's
`Edge.u`/`Edge.v` mirror the endpoints and are read by no claim, so they are
not duplicated here. -/
structure PEdge where
  eid : Nat
  node0 : Nat
  node1 : Nat
  weight : Weight
deriving DecidableEq, Repr

/-- Model of `petgraph::stable_graph::StableUnGraph`.  `nodes` associates a
slot id with the node weight; `edges` is most-recent-first. -/
structure PGraph where
  nodes : List (Nat × Node)
  nextNode : Nat
  edges : List PEdge
  nextEdge : Nat

def PGraph.empty : PGraph := ⟨[], 0, [], 0⟩

/-- `StableGraph::add_node`: a fresh slot; returns the new `NodeIndex`. -/
def PGraph.addNode (pg : PGraph) (n : Node) : PGraph × Nat :=
  ({ pg with nodes := (pg.nextNode, n) :: pg.nodes, nextNode := pg.nextNode + 1 },
   pg.nextNode)

/-- `StableGraph::node_weight`. -/
def PGraph.nodeWeight (pg : PGraph) (i : Nat) : Option Node :=
  (pg.nodes.find? (fun p => p.1 == i)).map (·.2)

/-- Update the node stored at slot `i` (used for `node_weight_mut`). -/
def PGraph.mapNode (pg : PGraph) (i : Nat) (f : Node → Node) : PGraph :=
  { pg with nodes := pg.nodes.map (fun p => if p.1 == i then (p.1, f p.2) else p) }

/-- `StableGraph::edge_weight`: the edge record for an edge id. -/
def PGraph.edgeRecord (pg : PGraph) (e : Nat) : Option PEdge :=
  pg.edges.find? (fun pe => pe.eid == e)

/-- `StableGraph::add_edge`: panics (`none`) when either endpoint slot is
vacant, mirroring `StableGraph::add_edge`'s bounds/vacancy panic; otherwise
prepends the new edge (petgraph pushes new edges at the head of the adjacency
lists) and returns its id. -/
def PGraph.addEdge (pg : PGraph) (a b : Nat) (w : Weight) : Option (PGraph × Nat) :=
  match pg.nodeWeight a, pg.nodeWeight b with
  | some _, some _ =>
      some ({ pg with edges := ⟨pg.nextEdge, a, b, w⟩ :: pg.edges,
                      nextEdge := pg.nextEdge + 1 },
            pg.nextEdge)
  | _, _ => none

/-- `StableGraph::remove_edge` (the `Option<E>` result is ignored by all
callers in graph_p.rs). -/
def PGraph.removeEdge (pg : PGraph) (e : Nat) : PGraph :=
  { pg with edges := pg.edges.filter (fun pe => pe.eid != e) }

/-- `Graph::find_edge_undirected` as used by `contains_edge`/`update_edge`:
scan the node's outgoing list first (edges with `node[0] = a`), then the
incoming list, newest first in each — exactly petgraph's
`find_edge_undirected_from_node`. -/
def PGraph.findEdgeUndirected (pg : PGraph) (a b : Nat) : Option Nat :=
  match pg.edges.find? (fun e => e.node0 == a && e.node1 == b) with
  | some e => some e.eid
  | none => (pg.edges.find? (fun e => e.node1 == a && e.node0 == b)).map (·.eid)

/-- `StableGraph::contains_edge`. -/
def PGraph.containsEdge (pg : PGraph) (a b : Nat) : Bool :=
  (pg.findEdgeUndirected a b).isSome

/-- `StableGraph::update_edge`: replace the weight of the edge found by
`find_edge_undirected` (petgraph picks the most recently added parallel
edge), or add a fresh edge when none exists.  Returns the affected id. -/
def PGraph.updateEdge (pg : PGraph) (a b : Nat) (w : Weight) : Option (PGraph × Nat) :=
  match pg.findEdgeUndirected a b with
  | some e =>
      let newEdges := pg.edges.map
        (fun pe => if pe.eid == e then { pe with weight := w } else pe)
      some ({ pg with edges := newEdges }, e)
  | none => pg.addEdge a b w

/-- `neighbors_undirected`: walk the outgoing list (yielding `node[1]`), then
the incoming list (yielding `node[0]`, skipping self loops so they are
reported once), one entry per incident edge. -/
def PGraph.neighborsUndirected (pg : PGraph) (a : Nat) : List Nat :=
  (pg.edges.filter (fun e => e.node0 == a)).map (·.node1) ++
  (pg.edges.filter (fun e => e.node1 == a && e.node0 != a)).map (·.node0)

/-- `StableGraph::remove_node`: drops the slot and every incident edge. -/
def PGraph.removeNode (pg : PGraph) (i : Nat) : PGraph :=
  { pg with nodes := pg.nodes.filter (fun p => p.1 != i),
            edges := pg.edges.filter (fun e => e.node0 != i && e.node1 != i) }

/-- Pointwise-function model of `HashMap` insertion (`insert` / the write half
of the `entry(..).or_insert(..)` idiom). -/
def mapInsert {α β : Type} [DecidableEq α] (m : α → Option β) (k : α) (v : β) :
    α → Option β :=
  fun k' => if k' = k then some v else m k'

/-- `HashMap::remove`. -/
def mapRemove {α β : Type} [DecidableEq α] (m : α → Option β) (k : α) :
    α → Option β :=
  fun k' => if k' = k then none else m k'

/-- `Vec::swap_remove i`: replace index `i` with the last element and pop;
panics (`none`) when `i` is out of range. -/
def swapRemove {α : Type} (l : List α) (i : Nat) : Option (List α) :=
  match l.getLast? with
  | none => none
  | some a => if i < l.length then some ((l.set i a).dropLast) else none

/-- `Vec` index assignment `l[i] = a`: panics (`none`) out of range. -/
def listSetPanics {α : Type} (l : List α) (i : Nat) (a : α) : Option (List α) :=
  if i < l.length then some (l.set i a) else none

/-- Result of a Rust `&mut self` method: normal return, the
`print_error_and_return` path (message printed, state unchanged), or a
panic. -/
inductive RustResult (α : Type) where
  | ok : α → RustResult α
  | logged : String → α → RustResult α
  | panicked : RustResult α

/-- From the caller's point of view a `logged` return is still a normal
return; only a panic aborts. -/
def RustResult.toOption {α : Type} : RustResult α → Option α
  | .ok a => some a
  | .logged _ a => some a
  | .panicked => none

/-- The `Graph` struct of graph_p.rs: the petgraph instance plus the
`node_idx_map` (key → node handle) and `edge_idx_map`
((handle, handle) → list of parallel edge handles). -/
structure Graph where
  g : PGraph
  node_idx_map : String → Option Nat
  edge_idx_map : Nat × Nat → Option (List Nat)

/-- `Graph::new`. -/
def Graph.new : Graph := ⟨PGraph.empty, fun _ => none, fun _ => none⟩

/-- `Graph::add_node`: always inserts a fresh petgraph node, then overwrites
the key's map entry (no duplicate check). -/
def Graph.add_node (g : Graph) (name : String) : Graph × Nat :=
  let r := g.g.addNode ⟨name, 0⟩
  ({ g with g := r.1, node_idx_map := mapInsert g.node_idx_map name r.2 }, r.2)

/-- `Graph::change_node_opt_weight`: `node.optimal_weighted_degree =
new_weight * 2.0` — note this overwrites rather than accumulates; `unwrap`
panics when the slot is vacant. -/
def Graph.change_node_opt_weight (g : Graph) (idx : Nat) (new_weight : Weight) :
    Option Graph :=
  match g.g.nodeWeight idx with
  | none => none
  | some _ =>
      let pg := g.g.mapNode idx
        (fun nd => { nd with optimal_weighted_degree := new_weight * 2 })
      some { g with g := pg }

/-- The common tail of the three edge mutations: two sequential
`change_node_opt_weight` calls (one per endpoint), then a normal return. -/
def Graph.changeBothOk (g : Graph) (p q : Nat) (w1 w2 : Weight) : RustResult Graph :=
  match g.change_node_opt_weight p w1 with
  | none => .panicked
  | some g2 =>
    match g2.change_node_opt_weight q w2 with
    | none => .panicked
    | some g3 => .ok g3

/-- `Graph::add_edge`. -/
def Graph.add_edge (g : Graph) (u v : String) (weight : Weight) : RustResult Graph :=
  match g.node_idx_map u with
  | none => .logged ("Node " ++ u ++ " does not exist") g
  | some u_idx =>
  match g.node_idx_map v with
  | none => .logged ("Node " ++ v ++ " does not exist") g
  | some v_idx =>
  match g.g.addEdge u_idx v_idx weight with
  | none => .panicked
  | some (pg, edge_idx) =>
    -- push onto the (u, v) entry, then onto the (v, u) entry
    let m1 := mapInsert g.edge_idx_map (u_idx, v_idx)
      ((g.edge_idx_map (u_idx, v_idx)).getD [] ++ [edge_idx])
    let m2 := mapInsert m1 (v_idx, u_idx) ((m1 (v_idx, u_idx)).getD [] ++ [edge_idx])
    Graph.changeBothOk { g with g := pg, edge_idx_map := m2 } u_idx v_idx weight weight

/-- `Graph::update_edge`. -/
def Graph.update_edge (g : Graph) (u v : String) (weight : Weight)
    (parallel_edge_idx : Option Nat) : RustResult Graph :=
  match g.node_idx_map u with
  | none => .logged ("Node " ++ u ++ " does not exist") g
  | some u_idx =>
  match g.node_idx_map v with
  | none => .logged ("Node " ++ v ++ " does not exist") g
  | some v_idx =>
  if ¬ g.g.containsEdge u_idx v_idx then
    g.add_edge u v weight
  else
    let i := parallel_edge_idx.getD 0
    match g.edge_idx_map (u_idx, v_idx) with
    | none => .panicked
    | some lst =>
    match lst[i]? with
    | none => .panicked
    | some e0 =>
    match g.g.edgeRecord e0 with
    | none => .panicked
    | some pe =>
    let old_weight := pe.weight
    match g.g.updateEdge u_idx v_idx weight with
    | none => .panicked
    | some (pg, edge_idx_1) =>
    -- entry((u, v)).or_insert(vec![])[i] = edge_idx_1
    match listSetPanics ((g.edge_idx_map (u_idx, v_idx)).getD []) i edge_idx_1 with
    | none => .panicked
    | some luv =>
    let m1 := mapInsert g.edge_idx_map (u_idx, v_idx) luv
    match listSetPanics ((m1 (v_idx, u_idx)).getD []) i edge_idx_1 with
    | none => .panicked
    | some lvu =>
    let m2 := mapInsert m1 (v_idx, u_idx) lvu
    Graph.changeBothOk { g with g := pg, edge_idx_map := m2 } u_idx v_idx
      (weight - old_weight) (weight - old_weight)

/-- `Graph::get_edge_weight` (`none` = panic; `some 0` covers the logged
defaults). -/
def Graph.get_edge_weight (g : Graph) (u v : String) (parallel_edge_idx : Option Nat)
    (get_all_parallel : Option Bool) : Option Weight :=
  match g.node_idx_map u with
  | none => some 0
  | some u_idx =>
  match g.node_idx_map v with
  | none => some 0
  | some v_idx =>
  if ¬ g.g.containsEdge u_idx v_idx then some 0
  else
    match g.edge_idx_map (u_idx, v_idx) with
    | none => none
    | some edge_idx_list =>
    if get_all_parallel.getD false then
      match edge_idx_list[parallel_edge_idx.getD 0]? with
      | none => none
      | some e => (g.g.edgeRecord e).map (·.weight)
    else
      edge_idx_list.foldl
        (fun acc e =>
          match acc, g.g.edgeRecord e with
          | some w, some pe => some (w + pe.weight)
          | _, _ => none)
        (some 0)

/-- Inner loop of `Graph::remove_edge` for `remove_all_parallel = true`. -/
def Graph.removeAllLoop (u_idx v_idx : Nat) : Graph → List Nat → Option Graph
  | g, [] => some g
  | g, e :: rest =>
    match g.g.edgeRecord e with
    | none => none
    | some pe =>
      let g1 : Graph := { g with g := g.g.removeEdge e }
      match g1.change_node_opt_weight u_idx (-pe.weight) with
      | none => none
      | some g2 =>
      match g2.change_node_opt_weight v_idx (-pe.weight) with
      | none => none
      | some g3 => Graph.removeAllLoop u_idx v_idx g3 rest

/-- `Graph::remove_edge`. -/
def Graph.remove_edge (g : Graph) (u v : String) (parallel_edge_idx : Option Nat)
    (remove_all_parallel : Option Bool) : RustResult Graph :=
  match g.node_idx_map u with
  | none => .logged ("Node " ++ u ++ " does not exist") g
  | some u_idx =>
  match g.node_idx_map v with
  | none => .logged ("Node " ++ v ++ " does not exist") g
  | some v_idx =>
  if ¬ g.g.containsEdge u_idx v_idx then
    .logged "Edge does not exist" g
  else
    match g.edge_idx_map (u_idx, v_idx) with
    | none => .panicked
    | some edge_idx_list =>
    if ¬ remove_all_parallel.getD false then
      let i := parallel_edge_idx.getD 0
      match edge_idx_list[i]? with
      | none => .panicked
      | some e =>
      match g.g.edgeRecord e with
      | none => .panicked
      | some pe =>
      let weight := pe.weight
      let pg := g.g.removeEdge e
      -- entry((v, u)).or_insert(vec![]).swap_remove(i)
      match swapRemove ((g.edge_idx_map (v_idx, u_idx)).getD []) i with
      | none => .panicked
      | some lvu =>
      let m1 := mapInsert g.edge_idx_map (v_idx, u_idx) lvu
      -- entry((u, v)).or_insert(vec![]).swap_remove(i)
      match swapRemove ((m1 (u_idx, v_idx)).getD []) i with
      | none => .panicked
      | some luv =>
      let m2 := mapInsert m1 (u_idx, v_idx) luv
      Graph.changeBothOk { g with g := pg, edge_idx_map := m2 } u_idx v_idx
        (-weight) (-weight)
    else
      match Graph.removeAllLoop u_idx v_idx g edge_idx_list with
      | none => .panicked
      | some g1 =>
        .ok { g1 with edge_idx_map :=
                mapRemove (mapRemove g1.edge_idx_map (u_idx, v_idx)) (v_idx, u_idx) }

/-- `Graph::get_order`. -/
def Graph.get_order (g : Graph) : Nat := g.g.nodes.length

/-- `Graph::get_size`. -/
def Graph.get_size (g : Graph) : Nat := g.g.edges.length

/-- `Graph::get_node_idx` (`unwrap` panic on an unknown key modelled by
`none`). -/
def Graph.get_node_idx (g : Graph) (node : String) : Option Nat :=
  g.node_idx_map node

/-- `Graph::get_neighbors_idx` (`unwrap` panic on an unknown key). -/
def Graph.get_neighbors_idx (g : Graph) (node : String) : Option (List Nat) :=
  (g.node_idx_map node).map (g.g.neighborsUndirected ·)

/-- `Graph::get_neighbors` (`unwrap` panic on an unknown key or a vacant
neighbor slot). -/
def Graph.get_neighbors (g : Graph) (node : String) : Option (List Node) :=
  match g.node_idx_map node with
  | none => none
  | some i => (g.g.neighborsUndirected i).mapM g.g.nodeWeight

/-- `Graph::degree_of`: logs and returns 0 on an unknown key, else counts the
`neighbors_undirected` iterator. -/
def Graph.degree_of (g : Graph) (node : String) : Nat :=
  match g.node_idx_map node with
  | none => 0
  | some i => (g.g.neighborsUndirected i).length

/-- Body of the loop in `Graph::remove_node`: for each handle in the
neighbor snapshot, look the neighbor's name up and remove one single
parallel edge.  A `logged` result from `remove_edge` is a normal return. -/
def Graph.removeNodeLoop (uname : String) : Graph → List Nat → Option Graph
  | g, [] => some g
  | g, nIdx :: rest =>
    match g.g.nodeWeight nIdx with
    | none => none
    | some node_v =>
      match (g.remove_edge uname node_v.name none (some false)).toOption with
      | none => none
      | some g1 => Graph.removeNodeLoop uname g1 rest

/-- `Graph::remove_node`: snapshot the neighbor handles once, remove one
single edge per snapshot entry, then `StableGraph::remove_node`. -/
def Graph.remove_node (g : Graph) (node : Nat) : Option Graph :=
  match g.g.nodeWeight node with
  | none => none
  | some node_u =>
    match g.get_neighbors_idx node_u.name with
    | none => none
    | some nbrs =>
      match Graph.removeNodeLoop node_u.name g nbrs with
      | none => none
      | some g1 => some { g1 with g := g1.g.removeNode node }

/-- Observation: the `optimal_weighted_degree` currently stored for the node
registered under `name`. -/
def Graph.owd (g : Graph) (name : String) : Option Weight :=
  ((g.node_idx_map name).bind g.g.nodeWeight).map (·.optimal_weighted_degree)

/-- Fold of `Graph::add_node` over a list of keys. -/
def Graph.addNodes (g : Graph) : List String → Graph
  | [] => g
  | n :: rest => Graph.addNodes (g.add_node n).1 rest

/-! ## ipc/helpers.rs: timeout guard and decode loop -/

/-- `SerialDeviceStatus` lives in the `device` module, outside the given
sources.  Modelled from the spec: the state machine of §4.2,
`Disconnected → Connecting → Configuring → Configured → Connected`. -/
inductive SerialDeviceStatus where
  | disconnected
  | connecting
  | configuring
  | configured
  | connected
deriving DecidableEq, Repr

/-- Modelled from the spec: the slice of the `MeshDevice` record the timeout
handler reads — its configuration status. -/
structure MeshDevice where
  status : SerialDeviceStatus
deriving DecidableEq, Repr

/-- Payload of `dispatch_configuration_status` (port name, success flag,
optional message). -/
structure ConfigurationStatus where
  port_name : String
  successful : Bool
  message : Option String
deriving DecidableEq, Repr

/-- Post-`sleep` body of `spawn_connection_timeout_handler`: under the device
registry lock, look the session up (missing ⇒ warn and return), re-check its
status, and — only if still `Configuring` — request the configuration-failed
dispatch.  The first component is the registry as left behind (the handler
never writes to it); the second is the message handed to
`dispatch_configuration_status` (`none` = no dispatch requested). -/
def connectionTimeoutBody (devices : String → Option MeshDevice)
    (port_name : String) : (String → Option MeshDevice) × Option ConfigurationStatus :=
  match devices port_name with
  | none => (devices, none)
  | some device =>
    if device.status ≠ SerialDeviceStatus.configuring then
      (devices, none)
    else
      (devices,
       some ⟨port_name, false,
             some "Configuration timed out. Are you sure this is a Meshtastic device?"⟩)

/-- Modelled from the spec: the user-notification payload facet. -/
structure NotificationConfig where
  title : String
  body : String
deriving DecidableEq, Repr

/-- Modelled from the spec: the independent facets of the update result a
`DeviceSession` yields per decoded event (§4.2). -/
structure DeviceUpdateResult where
  device_updated : Bool
  regenerate_graph : Bool
  configuration_success : Bool
  notification_config : Option NotificationConfig
deriving DecidableEq, Repr

/-- How one iteration of the decode loop ends: `continue`-style fall-through
to the next `recv`, or a panic of the handler task (the `.expect(..)` on the
configuration-status dispatch). -/
inductive LoopStep where
  | next
  | panicked
deriving DecidableEq, Repr

/-- Which side effects one decode-loop iteration attempted. -/
structure DecodedStepTrace where
  dispatched_device : Bool
  regenerated_graph : Bool
  dispatched_edges : Bool
  dispatched_config_success : Bool
  status_set_connected : Bool
  notified : Bool
  step : LoopStep
deriving DecidableEq, Repr

/-- One iteration of `spawn_decoded_handler`'s loop from the point where
`handle_packet_from_radio` returned `update_result`.  `statusConfigured`
is the `device.status == SerialDeviceStatus::Configured` check; the four
booleans are the outcomes of the fallible external calls
(`dispatch_updated_device`, `dispatch_updated_edges`,
`dispatch_configuration_status`, `Notification::notify`). -/
def decodedStep (ur : DeviceUpdateResult) (statusConfigured : Bool)
    (deviceDispatchOk edgesDispatchOk configDispatchOk notifyOk : Bool) :
    DecodedStepTrace :=
  let dd := ur.device_updated
  if ur.device_updated && !deviceDispatchOk then
    -- error!(..); continue — skips everything below for this event
    ⟨true, false, false, false, false, false, .next⟩
  else
    let rg := ur.regenerate_graph
    if ur.regenerate_graph && !edgesDispatchOk then
      -- graph already regenerated; error!(..); continue
      ⟨dd, true, true, false, false, false, .next⟩
    else
      let cs := ur.configuration_success && statusConfigured
      if cs && !configDispatchOk then
        -- .expect("Failed to dispatch configuration failure message")
        ⟨dd, rg, rg, true, false, false, .panicked⟩
      else
        -- notification failure is logged and the loop continues either way
        let _ := notifyOk
        ⟨dd, rg, rg, cs, cs, ur.notification_config.isSome, .next⟩

/-! ## Concrete graphs used by the claim evaluations and witnesses -/

/-- Two nodes `u` (handle 0) and `v` (handle 1). -/
def gUV : Graph := ((Graph.new.add_node "u").1.add_node "v").1

/-- … plus one `u`-`v` edge of weight 1 (edge handle 0). -/
def gUV1 : Graph := ((gUV.add_edge "u" "v" 1).toOption).getD Graph.new

/-- … plus a second `u`-`v` edge of weight 1. -/
def gUV11 : Graph := ((gUV1.add_edge "u" "v" 1).toOption).getD Graph.new

/-- `gUV1` plus a parallel `u`-`v` edge of weight 2 (edge handle 1). -/
def gUV12 : Graph := ((gUV1.add_edge "u" "v" 2).toOption).getD Graph.new

/-- `gUV1` after `update_edge("u", "v", 5.0, None)`. -/
def gUpd5 : Graph := ((gUV1.update_edge "u" "v" 5 none).toOption).getD Graph.new

/-- `gUV12` after `update_edge("u", "v", 10.0, Some(0))`. -/
def gUpd10 : Graph := ((gUV12.update_edge "u" "v" 10 (some 0)).toOption).getD Graph.new

/-- `gUV1` after `remove_node(0)` (removing `u`). -/
def gStale : Graph := (gUV1.remove_node 0).getD Graph.new

/-- Two `add_node` calls with the same key `a`. -/
def gAA : Graph := ((Graph.new.add_node "a").1.add_node "a").1

/-- Three nodes `u` (0), `v` (1), `w` (2). -/
def gUVW : Graph := (((Graph.new.add_node "u").1.add_node "v").1.add_node "w").1

/-- … plus a `u`-`v` edge of weight 1. -/
def c7g1 : Graph := (gUVW.add_edge "u" "v" 1).toOption.getD Graph.new

/-- … plus a parallel `u`-`v` edge of weight 2. -/
def c7g2 : Graph := (c7g1.add_edge "u" "v" 2).toOption.getD Graph.new

/-- … plus a `u`-`w` edge of weight 3: the C7 witness graph. -/
def c7g : Graph := (c7g2.add_edge "u" "w" 3).toOption.getD Graph.new

/-! ## Operation sequences and structural invariants -/

/-- The mutating operations C3 quantifies over, plus `add_node` so that
sequences can build their own nodes starting from `Graph::new`. -/
inductive GOp where
  | addNode (name : String)
  | addEdge (u v : String) (w : Weight)
  | updateEdge (u v : String) (w : Weight) (i : Option Nat)
  | removeEdge (u v : String) (i : Option Nat) (all : Option Bool)

/-- Run one operation; `none` = the program panicked. -/
def applyOp (g : Graph) : GOp → Option Graph
  | .addNode n => some (g.add_node n).1
  | .addEdge u v w => (g.add_edge u v w).toOption
  | .updateEdge u v w i => (g.update_edge u v w i).toOption
  | .removeEdge u v i a => (g.remove_edge u v i a).toOption

/-- Run a sequence of operations, aborting on a panic. -/
def runOps (g : Graph) : List GOp → Option Graph
  | [] => some g
  | op :: rest =>
    match applyOp g op with
    | none => none
    | some g1 => runOps g1 rest

/-- Index symmetry: the `edge_idx_map` entries under `(a, b)` and `(b, a)`
are identical. -/
def SymIdx (g : Graph) : Prop :=
  ∀ a b : Nat, g.edge_idx_map (a, b) = g.edge_idx_map (b, a)

/-- Is `e` incident to slot `n`? -/
def incTo (n : Nat) (e : PEdge) : Bool :=
  e.node0 == n || e.node1 == n

/-- The endpoint of `e` other than `n` (meaningful when `e` is incident to
`n` and not a self loop). -/
def otherEnd (n : Nat) (e : PEdge) : Nat :=
  if e.node0 == n then e.node1 else e.node0

/-- The edges between the unordered pair `a`, `b`. -/
def edgesBetween (pg : PGraph) (a b : Nat) : List PEdge :=
  pg.edges.filter (fun e => (e.node0 == a && e.node1 == b) ||
    (e.node0 == b && e.node1 == a))

/-- Structural coherence of a `Graph`: the key map is a bijection onto the
live slots, edge ids are distinct and fresh, no self loops, edge endpoints
are live, and the `edge_idx_map` entries are symmetric and hold exactly the
ids of the edges between their key pair.  Holds for every graph built by
`add_node` (fresh keys) and `add_edge` (distinct keys); it is what
`remove_node`'s edge-removal loop relies on. -/
structure WF (g : Graph) : Prop where
  keyBij : ∀ s i, g.node_idx_map s = some i ↔
    ∃ nd, g.g.nodeWeight i = some nd ∧ nd.name = s
  eidNodup : (g.g.edges.map (·.eid)).Nodup
  noSelfLoop : ∀ e ∈ g.g.edges, e.node0 ≠ e.node1
  edgeEnds : ∀ e ∈ g.g.edges,
    (g.g.nodeWeight e.node0).isSome ∧ (g.g.nodeWeight e.node1).isSome
  symmIdx : SymIdx g
  idxSound : ∀ a b, a ≠ b →
    ((g.edge_idx_map (a, b)).getD []).Perm ((edgesBetween g.g a b).map (·.eid))
  freshNode : ∀ p ∈ g.g.nodes, p.1 < g.g.nextNode
  freshEdge : ∀ e ∈ g.g.edges, e.eid < g.g.nextEdge

/-- Operation sequence exercising all three edge mutations for the C3
witness. -/
def c3Ops : List GOp :=
  [.addNode "u", .addNode "v", .addEdge "u" "v" 1, .addEdge "u" "v" 2,
   .removeEdge "u" "v" (some 1) none, .updateEdge "u" "v" 7 none,
   .removeEdge "u" "v" none (some true)]

/-- The graph produced by `c3Ops`. -/
def c3Final : Graph := (runOps Graph.new c3Ops).getD Graph.new

/-! ## Claims -/

/-- C1: the claim says `add_edge(u, v, w)` increases both endpoints'
`weighted_degree` by `2*w`, accumulating across calls.  Evaluating the code:
`change_node_opt_weight` assigns `new_weight * 2.0`, so the first
`add_edge("u","v",1)` leaves `weighted_degree(u) = 2`, and a second identical
call leaves it at `2` instead of the claimed `4`: the value is overwritten,
not accumulated (each call does add exactly one new edge).  The callers pass
deltas (`weight - old_weight`, `-weight`), so the assignment, rather than an
increment, is the code slip. -/
theorem c1_add_edge_overwrites_weighted_degree :
    (gUV.add_edge "u" "v" 1).toOption = some gUV1 ∧
    (gUV1.add_edge "u" "v" 1).toOption = some gUV11 ∧
    gUV1.owd "u" = some 2 ∧ gUV1.owd "v" = some 2 ∧
    gUV11.owd "u" = some 2 ∧ ¬ gUV11.owd "u" = some 4 ∧
    gUV1.get_size = 1 ∧ gUV11.get_size = 2 :=
  ⟨rfl, rfl, by decide, by decide, by decide, by decide, rfl, rfl⟩

/-- C2: the claim says `update_edge` replaces precisely the edge at ordinal
`i` and adjusts both endpoints' `weighted_degree` by `2*(new - old)`.
Evaluating the code: (a) with a single edge of weight 1, `update_edge(u,v,5)`
leaves `weighted_degree(u) = 2*(5-1) = 8` where the claim demands
`2 + 2*(5-1) = 10` — the degree is overwritten, not adjusted; (b) with
parallel edges (handle 0 weight 1, handle 1 weight 2),
`update_edge(u,v,10,Some(0))` leaves edge 0 at weight 1 and writes 10 into
edge 1, because petgraph's `update_edge` rewrites the edge found by
`find_edge` (the most recently added), even though `old_weight` was read at
ordinal 0; both `edge_idx_map` entries end up as `[1, 1]`, double-counting
edge 1 in the aggregate weight (20). -/
theorem c2_update_edge_wrong_edge_and_degree :
    (gUV1.update_edge "u" "v" 5 none).toOption = some gUpd5 ∧
    gUV1.owd "u" = some 2 ∧
    gUpd5.owd "u" = some 8 ∧ ¬ gUpd5.owd "u" = some 10 ∧
    (gUV12.update_edge "u" "v" 10 (some 0)).toOption = some gUpd10 ∧
    gUpd10.g.edgeRecord 0 = some ⟨0, 0, 1, 1⟩ ∧
    gUpd10.g.edgeRecord 1 = some ⟨1, 0, 1, 10⟩ ∧
    gUpd10.edge_idx_map (0, 1) = some [1, 1] ∧
    gUpd10.get_edge_weight "u" "v" none (some false) = some 20 :=
  ⟨rfl, by decide, by decide, by decide, rfl, by decide, by decide, by decide, by decide⟩

/-- C6 counterexample: two `add_node("a")` calls yield `get_order() = 2`,
not the claimed number of distinct keys (1): `Graph::add_node` inserts a
fresh petgraph node unconditionally and merely rebinds the key. -/
theorem c6_duplicate_key_counted_twice :
    gAA.get_order = 2 ∧ ¬ gAA.get_order = 1 :=
  ⟨rfl, by decide⟩

/-- C6 amended: after any sequence of `add_node` calls, `get_order()` equals
the total number of calls — a duplicate key adds a second node (the key is
rebound to the new handle and the earlier node is left in the graph). -/
theorem c6_amended_get_order_counts_calls (g : Graph) (names : List String) :
    (Graph.addNodes g names).get_order = g.get_order + names.length := by
  induction names generalizing g with
  | nil => simp [Graph.addNodes]
  | cons n rest ih =>
      rw [Graph.addNodes, ih]
      simp [Graph.add_node, Graph.get_order, PGraph.addNode]
      omega

/-- C10: after `add_node("u")`, `add_node("v")`, `add_edge("u","v",1)` and
`remove_node(0)`, the key `"u"` still maps to the dead handle 0 and the
emptied edge-index entries remain; `add_edge`/`update_edge` naming `"u"`
pass the node-existence check and reach petgraph with the stale handle
(panicking inside `StableGraph::add_edge`), and `remove_edge` passes the
check and takes the edge-not-found path — none of them takes the
`"Node u does not exist"` no-op failure path. -/
theorem c10_remove_node_leaves_stale_key :
    gUV1.remove_node 0 = some gStale ∧
    gStale.node_idx_map "u" = some 0 ∧
    gStale.g.nodeWeight 0 = none ∧
    gStale.edge_idx_map (0, 1) = some [] ∧
    gStale.edge_idx_map (1, 0) = some [] ∧
    gStale.add_edge "u" "v" 5 = .panicked ∧
    gStale.update_edge "u" "v" 5 none = .panicked ∧
    gStale.remove_edge "u" "v" none none = .logged "Edge does not exist" gStale :=
  ⟨rfl, rfl, rfl, rfl, rfl, rfl, rfl, rfl⟩

/-- C4 counterexample: the claim says no operation panics on any input; but
`get_edge_weight` with an out-of-range `parallel_edge_idx` and
`aggregate = true` indexes the `Vec` out of bounds (modelled `none` =
panic), and `get_node_idx`/`get_neighbors`/`get_neighbors_idx` `unwrap`
on an unknown key. -/
theorem c4_lookup_operations_can_panic :
    gUV12.get_edge_weight "u" "v" (some 5) (some true) = none ∧
    Graph.new.get_node_idx "a" = none ∧
    Graph.new.get_neighbors "a" = none ∧
    Graph.new.get_neighbors_idx "a" = none :=
  ⟨rfl, rfl, rfl, rfl⟩

/-- C4 amended: on an unknown first key, `get_edge_weight` and `degree_of`
return the harmless defaults and the three mutators take the logged no-op
path; but `get_node_idx`, `get_neighbors` and `get_neighbors_idx` panic on
an unknown key, and `get_edge_weight` panics on an out-of-range
`parallel_edge_idx` when `get_all_parallel` is true. -/
theorem c4_amended_graceful_and_panicking_paths (g : Graph) (u v : String)
    (w : Weight) (pidx : Option Nat) (rall : Option Bool) (i : Nat) :
    (g.node_idx_map u = none →
      g.get_edge_weight u v pidx rall = some 0 ∧
      g.degree_of u = 0 ∧
      g.add_edge u v w = .logged ("Node " ++ u ++ " does not exist") g ∧
      g.update_edge u v w pidx = .logged ("Node " ++ u ++ " does not exist") g ∧
      g.remove_edge u v pidx rall = .logged ("Node " ++ u ++ " does not exist") g ∧
      g.get_node_idx u = none ∧
      g.get_neighbors u = none ∧
      g.get_neighbors_idx u = none) ∧
    (∀ ui vi lst, g.node_idx_map u = some ui → g.node_idx_map v = some vi →
      g.g.containsEdge ui vi = true → g.edge_idx_map (ui, vi) = some lst →
      lst.length ≤ i →
      g.get_edge_weight u v (some i) (some true) = none) := by
  constructor
  · intro hu
    refine ⟨?_, ?_, ?_, ?_, ?_, hu, ?_, ?_⟩ <;>
      simp [Graph.get_edge_weight, Graph.degree_of, Graph.add_edge,
        Graph.update_edge, Graph.remove_edge, Graph.get_neighbors,
        Graph.get_neighbors_idx, hu]
  · intro ui vi lst hui hvi hc hl hlen
    simp [Graph.get_edge_weight, hui, hvi, hc, hl,
      List.getElem?_eq_none hlen]

/-- C5: `get_edge_weight` returns 0 when either key is unknown or no edge
exists; when edges exist it returns the weight of the single edge at the
requested ordinal of the stored `(u,v)` parallel list when the flag is true,
and the sum of the weights over that list when the flag is false. -/
theorem c5_get_edge_weight_branches (g : Graph) (u v : String)
    (pidx : Option Nat) (gall : Option Bool) :
    (g.node_idx_map u = none → g.get_edge_weight u v pidx gall = some 0) ∧
    (∀ ui, g.node_idx_map u = some ui → g.node_idx_map v = none →
        g.get_edge_weight u v pidx gall = some 0) ∧
    (∀ ui vi, g.node_idx_map u = some ui → g.node_idx_map v = some vi →
        g.g.containsEdge ui vi = false →
        g.get_edge_weight u v pidx gall = some 0) ∧
    (∀ ui vi lst e pe, g.node_idx_map u = some ui → g.node_idx_map v = some vi →
        g.g.containsEdge ui vi = true → g.edge_idx_map (ui, vi) = some lst →
        lst[pidx.getD 0]? = some e → g.g.edgeRecord e = some pe →
        g.get_edge_weight u v pidx (some true) = some pe.weight) ∧
    (∀ ui vi lst, g.node_idx_map u = some ui → g.node_idx_map v = some vi →
        g.g.containsEdge ui vi = true → g.edge_idx_map (ui, vi) = some lst →
        (∀ e ∈ lst, (g.g.edgeRecord e).isSome) →
        g.get_edge_weight u v pidx (some false) =
          some (((lst.filterMap g.g.edgeRecord).map (·.weight)).sum)) := by
  refine ⟨?_, ?_, ?_, ?_, ?_⟩
  · intro hu; simp [Graph.get_edge_weight, hu]
  · intro ui hu hv; simp [Graph.get_edge_weight, hu, hv]
  · intro ui vi hu hv hc; simp [Graph.get_edge_weight, hu, hv, hc]
  · intro ui vi lst e pe hu hv hc hl he hrec
    simp [Graph.get_edge_weight, hu, hv, hc, hl, he, hrec]
  · intro ui vi lst hu hv hc hl hall
    simp only [Graph.get_edge_weight, hu, hv, hc, Bool.not_true,
      Bool.false_eq_true, if_false, ite_false, hl]
    have key : ∀ (l : List Nat) (acc : Weight),
        (∀ e ∈ l, (g.g.edgeRecord e).isSome) →
        (l.foldl
          (fun acc e =>
            match acc, g.g.edgeRecord e with
            | some w, some pe => some (w + pe.weight)
            | _, _ => none)
          (some acc)) = some (acc + ((l.filterMap g.g.edgeRecord).map (·.weight)).sum) := by
      intro l
      induction l with
      | nil => intro acc _; simp
      | cons x xs ih =>
          intro acc hallx
          obtain ⟨px, hx⟩ := Option.isSome_iff_exists.mp (hallx x (List.mem_cons_self x xs))
          simp only [List.foldl_cons, hx, List.filterMap_cons]
          rw [ih (acc + px.weight) (fun e he => hallx e (List.mem_cons_of_mem x he))]
          simp only [List.map_cons, List.sum_cons, Option.some_inj]
          ring
    have := key lst 0 hall
    simpa using this

/-- C8: when the timeout deadline fires, the handler re-checks the session's
status under the registry lock: it requests the configuration-failed dispatch
iff the session exists and is still `Configuring`; the message always carries
`successful = false` for that port, and the registry itself is left untouched
in every case. -/
theorem c8_timeout_fires_only_while_configuring
    (devices : String → Option MeshDevice) (port : String) :
    (connectionTimeoutBody devices port).1 = devices ∧
    ((connectionTimeoutBody devices port).2.isSome ↔
      ∃ d, devices port = some d ∧ d.status = SerialDeviceStatus.configuring) ∧
    (∀ msg, (connectionTimeoutBody devices port).2 = some msg →
      msg.port_name = port ∧ msg.successful = false) := by
  unfold connectionTimeoutBody
  cases hd : devices port with
  | none => simp [hd]
  | some d =>
      by_cases hs : d.status = SerialDeviceStatus.configuring
      · simp [hd, hs]
      · simp only [hd, ne_eq, hs, not_false_eq_true, if_true]
        refine ⟨trivial, ?_, by simp⟩
        simp only [Option.isSome_none, Bool.false_eq_true, false_iff]
        rintro ⟨d', hd', hs'⟩
        cases hd'
        exact hs hs'

/-- C9 counterexample: with `device_updated` and `regenerate_graph` both set
and the device dispatch failing, the loop `continue`s without attempting the
graph regeneration (the claim says remaining independent side effects are
still attempted); and a failing configuration-status dispatch panics the
handler task via `.expect(..)` (the claim says the loop does not panic). -/
theorem c9_dispatch_failure_skips_rest_and_expect_panics :
    (decodedStep ⟨true, true, false, none⟩ true false true true true).regenerated_graph
        = false ∧
    (decodedStep ⟨true, true, false, none⟩ true false true true true).step
        = LoopStep.next ∧
    (decodedStep ⟨false, false, true, none⟩ true true true false true).step
        = LoopStep.panicked := by
  refine ⟨rfl, rfl, rfl⟩

/-- C9 amended: a failure of `dispatch_updated_device` or
`dispatch_updated_edges` is logged and the loop moves on to the next event
without panicking, but the current event's remaining side effects are
skipped (`continue`); a failure of the configuration-status dispatch, by
contrast, panics the handler task. -/
theorem c9_amended_failure_handling (ur : DeviceUpdateResult)
    (s d e c n : Bool) :
    (ur.device_updated = true → d = false →
        decodedStep ur s d e c n = ⟨true, false, false, false, false, false, .next⟩) ∧
    (¬ (ur.device_updated = true ∧ d = false) →
        ur.regenerate_graph = true → e = false →
        decodedStep ur s d e c n =
          ⟨ur.device_updated, true, true, false, false, false, .next⟩) ∧
    (¬ (ur.device_updated = true ∧ d = false) →
        ¬ (ur.regenerate_graph = true ∧ e = false) →
        ur.configuration_success = true → s = true → c = false →
        (decodedStep ur s d e c n).step = LoopStep.panicked) := by
  refine ⟨?_, ?_, ?_⟩
  · intro h1 h2; simp [decodedStep, h1, h2]
  · intro h1 h2 h3
    simp only [decodedStep, h2, h3]
    simp only [not_and] at h1
    rcases hd : ur.device_updated with _ | _
    · simp
    · simp [h1 hd]
  · intro h1 h2 h3 h4 h5
    simp only [decodedStep, h3, h4, h5]
    simp only [not_and] at h1 h2
    rcases hd : ur.device_updated with _ | _
    · rcases hr : ur.regenerate_graph with _ | _
      · simp
      · simp [h2 hr]
    · rcases hr : ur.regenerate_graph with _ | _
      · simp [h1 hd]
      · simp [h1 hd, h2 hr]

/-- C9 amended, witnessed at concrete inputs. -/
theorem c9_amended_failure_handling_witness :
    decodedStep ⟨true, true, true, none⟩ true false true true true
      = ⟨true, false, false, false, false, false, .next⟩ ∧
    decodedStep ⟨true, true, true, none⟩ true true false true true
      = ⟨true, true, true, false, false, false, .next⟩ ∧
    (decodedStep ⟨true, true, true, none⟩ true true true false true).step
      = LoopStep.panicked :=
  ⟨(c9_amended_failure_handling ⟨true, true, true, none⟩ true false true true true).1
      rfl rfl,
   (c9_amended_failure_handling ⟨true, true, true, none⟩ true true false true true).2.1
      (by simp) rfl rfl,
   (c9_amended_failure_handling ⟨true, true, true, none⟩ true true true false true).2.2
      (by simp) (by simp) rfl rfl rfl⟩

/-- C4 amended, witnessed: the graceful branch at an empty graph and the
out-of-range panic branch at the concrete two-parallel-edge graph. -/
theorem c4_amended_witness :
    (Graph.new.get_edge_weight "a" "b" none none = some 0 ∧
     Graph.new.degree_of "a" = 0 ∧
     Graph.new.add_edge "a" "b" 1 = .logged ("Node " ++ "a" ++ " does not exist") Graph.new ∧
     Graph.new.update_edge "a" "b" 1 none = .logged ("Node " ++ "a" ++ " does not exist") Graph.new ∧
     Graph.new.remove_edge "a" "b" none none = .logged ("Node " ++ "a" ++ " does not exist") Graph.new ∧
     Graph.new.get_node_idx "a" = none ∧
     Graph.new.get_neighbors "a" = none ∧
     Graph.new.get_neighbors_idx "a" = none) ∧
    gUV12.get_edge_weight "u" "v" (some 7) (some true) = none :=
  ⟨(c4_amended_graceful_and_panicking_paths Graph.new "a" "b" 1 none none 7).1 rfl,
   (c4_amended_graceful_and_panicking_paths gUV12 "u" "v" 1 none none 7).2
      0 1 [0, 1] rfl rfl (by decide) (by decide) (by decide)⟩

/-- C5, witnessed on the two-parallel-edge graph (weights 1 and 2): unknown
keys and missing edges give 0, ordinals 0 and 1 give the single weights,
and the aggregate branch gives the sum 3. -/
theorem c5_get_edge_weight_branches_witness :
    Graph.new.get_edge_weight "u" "v" none none = some 0 ∧
    gUV12.get_edge_weight "u" "v" (some 0) (some true) = some 1 ∧
    gUV12.get_edge_weight "u" "v" (some 1) (some true) = some 2 ∧
    gUV12.get_edge_weight "u" "v" none (some false) = some 3 :=
  ⟨(c5_get_edge_weight_branches Graph.new "u" "v" none none).1 rfl,
   by
    have h := (c5_get_edge_weight_branches gUV12 "u" "v" (some 0) (some true)).2.2.2.1
      0 1 [0, 1] 0 ⟨0, 0, 1, 1⟩ rfl rfl (by decide) (by decide) (by decide) (by decide)
    simpa using h,
   by
    have h := (c5_get_edge_weight_branches gUV12 "u" "v" (some 1) (some true)).2.2.2.1
      0 1 [0, 1] 1 ⟨1, 0, 1, 2⟩ rfl rfl (by decide) (by decide) (by decide) (by decide)
    simpa using h,
   by
    have h := (c5_get_edge_weight_branches gUV12 "u" "v" none (some false)).2.2.2.2
      0 1 [0, 1] rfl rfl (by decide) (by decide) (by decide)
    simpa using h⟩

end Meshtastic
namespace Meshtastic

/-- Evaluating `nodeWeight` after `mapNode`: only slot `i` is rewritten. -/
theorem PGraph.nodeWeight_mapNode (pg : PGraph) (i : Nat) (f : Node → Node) (j : Nat) :
    (pg.mapNode i f).nodeWeight j =
      (pg.nodeWeight j).map (fun nd => if j = i then f nd else nd) := by
  unfold PGraph.mapNode PGraph.nodeWeight
  simp only
  rw [List.find?_map]
  have hp : ((fun p : Nat × Node => p.1 == j) ∘
      (fun p : Nat × Node => if p.1 == i then (p.1, f p.2) else p))
      = fun p => p.1 == j := by
    funext p; by_cases h : p.1 = i <;> simp [h]
  rw [hp]
  cases hf : pg.nodes.find? (fun p => p.1 == j) with
  | none => simp
  | some p =>
      have hpj := List.find?_some hf
      rw [beq_iff_eq] at hpj
      by_cases hij : j = i <;> simp [hij, hpj]

/-- `change_node_opt_weight` rewrites one node's degree: both lookup maps,
the edge list, the counters, every slot's name and every slot's occupancy
are untouched. -/
theorem change_node_opt_weight_parts {g : Graph} {i : Nat} {w : Weight} {g' : Graph}
    (h : g.change_node_opt_weight i w = some g') :
    g'.edge_idx_map = g.edge_idx_map ∧ g'.node_idx_map = g.node_idx_map ∧
    g'.g.edges = g.g.edges ∧ g'.g.nextNode = g.g.nextNode ∧
    g'.g.nextEdge = g.g.nextEdge ∧
    (∀ j, (g'.g.nodeWeight j).map Node.name = (g.g.nodeWeight j).map Node.name) ∧
    (∀ j, (g'.g.nodeWeight j).isSome = (g.g.nodeWeight j).isSome) ∧
    g'.g.nodes.map (·.1) = g.g.nodes.map (·.1) := by
  unfold Graph.change_node_opt_weight at h
  split at h
  · exact absurd h (by simp)
  · simp only [Option.some_inj] at h
    subst h
    refine ⟨rfl, rfl, rfl, rfl, rfl, ?_, ?_, ?_⟩
    rotate_right
    · show (g.g.nodes.map fun p =>
          if p.1 == i then (p.1, { p.2 with optimal_weighted_degree := w * 2 }) else p).map (·.1)
        = g.g.nodes.map (·.1)
      rw [List.map_map]
      refine List.map_congr_left ?_
      intro p _
      by_cases hp : p.1 = i <;> simp [hp]
    all_goals intro j <;>
      rw [show (Graph.mk (g.g.mapNode i
            (fun nd => { nd with optimal_weighted_degree := w * 2 }))
            g.node_idx_map g.edge_idx_map).g
          = g.g.mapNode i (fun nd => { nd with optimal_weighted_degree := w * 2 })
          from rfl, PGraph.nodeWeight_mapNode] <;>
      cases g.g.nodeWeight j <;> simp <;> split <;> simp

/-- The two-endpoint degree rewrite: same preservation facts as a single
`change_node_opt_weight`. -/
theorem changeBothOk_parts {g1 : Graph} {p q : Nat} {w1 w2 : Weight} {g' : Graph}
    (hr : (g1.changeBothOk p q w1 w2).toOption = some g') :
    g'.edge_idx_map = g1.edge_idx_map ∧ g'.node_idx_map = g1.node_idx_map ∧
    g'.g.edges = g1.g.edges ∧ g'.g.nextNode = g1.g.nextNode ∧
    g'.g.nextEdge = g1.g.nextEdge ∧
    (∀ j, (g'.g.nodeWeight j).map Node.name = (g1.g.nodeWeight j).map Node.name) ∧
    (∀ j, (g'.g.nodeWeight j).isSome = (g1.g.nodeWeight j).isSome) ∧
    g'.g.nodes.map (·.1) = g1.g.nodes.map (·.1) := by
  unfold Graph.changeBothOk at hr
  cases hc1 : g1.change_node_opt_weight p w1 with
  | none => rw [hc1] at hr; exact absurd hr (by simp [RustResult.toOption])
  | some g2 =>
    simp only [hc1] at hr
    cases hc2 : g2.change_node_opt_weight q w2 with
    | none =>
        simp only [hc2, RustResult.toOption] at hr
        exact absurd hr (by simp)
    | some g3 =>
      simp only [hc2, RustResult.toOption, Option.some_inj] at hr
      subst hr
      obtain ⟨e1, n1, ed1, nn1, ne1, nm1, is1, ky1⟩ := change_node_opt_weight_parts hc1
      obtain ⟨e2, n2, ed2, nn2, ne2, nm2, is2, ky2⟩ := change_node_opt_weight_parts hc2
      exact ⟨e2.trans e1, n2.trans n1, ed2.trans ed1, nn2.trans nn1, ne2.trans ne1,
        fun j => (nm2 j).trans (nm1 j), fun j => (is2 j).trans (is1 j), ky2.trans ky1⟩

/-- All three edge mutations write the two direction entries of
`edge_idx_map` through the same shape: read the `(p, q)` entry, store `l1`
there, read the `(q, p)` entry of the updated map, store `l2` there.  Any
such double write preserves pointwise symmetry of the map. -/
theorem symIdx_insertPair (m : Nat × Nat → Option (List Nat))
    (hs : ∀ a b : Nat, m (a, b) = m (b, a)) (p q : Nat)
    (F : List Nat → Option (List Nat)) (l1 l2 : List Nat)
    (h1 : F ((m (p, q)).getD []) = some l1)
    (h2 : F (((mapInsert m (p, q) l1) (q, p)).getD []) = some l2)
    (a b : Nat) :
    mapInsert (mapInsert m (p, q) l1) (q, p) l2 (a, b)
      = mapInsert (mapInsert m (p, q) l1) (q, p) l2 (b, a) := by
  by_cases hab : a = b
  · subst hab; rfl
  by_cases hpq : p = q
  · subst hpq
    simp only [mapInsert, Prod.mk.injEq]
    split_ifs <;> first | rfl | (exfalso; omega) | (exact hs a b)
  · have hqp : (q, p) ≠ (p, q) := by
      rw [Ne, Prod.mk.injEq]; rintro ⟨h, -⟩; exact hpq h.symm
    have hm1 : (mapInsert m (p, q) l1) (q, p) = m (p, q) := by
      rw [mapInsert, if_neg hqp]; exact hs q p
    rw [hm1, h1] at h2
    have hl12 : l2 = l1 := (Option.some_inj.mp h2).symm
    subst hl12
    simp only [mapInsert, Prod.mk.injEq]
    split_ifs <;> first | rfl | (exfalso; omega) | (exact hs a b)

/-- Dropping both direction entries preserves pointwise symmetry. -/
theorem symIdx_removePair (m : Nat × Nat → Option (List Nat))
    (hs : ∀ a b : Nat, m (a, b) = m (b, a)) (p q : Nat) (a b : Nat) :
    mapRemove (mapRemove m (p, q)) (q, p) (a, b)
      = mapRemove (mapRemove m (p, q)) (q, p) (b, a) := by
  by_cases hab : a = b
  · subst hab; rfl
  · simp only [mapRemove, Prod.mk.injEq]
    split_ifs <;> first | rfl | (exfalso; omega) | (exact hs a b)

/-- `add_edge` preserves index symmetry. -/
theorem symIdx_add_edge {g g' : Graph} {u v : String} {w : Weight}
    (hs : SymIdx g) (hr : (g.add_edge u v w).toOption = some g') : SymIdx g' := by
  unfold Graph.add_edge at hr
  cases hu : g.node_idx_map u with
  | none =>
      simp only [hu, RustResult.toOption, Option.some_inj] at hr
      exact hr ▸ hs
  | some p =>
    simp only [hu] at hr
    cases hv : g.node_idx_map v with
    | none =>
        simp only [hv, RustResult.toOption, Option.some_inj] at hr
        exact hr ▸ hs
    | some q =>
      simp only [hv] at hr
      cases hadd : g.g.addEdge p q w with
      | none => simp only [hadd, RustResult.toOption] at hr; exact absurd hr (by simp)
      | some pr =>
        obtain ⟨pg, eidx⟩ := pr
        simp only [hadd] at hr
        obtain ⟨em, -, -, -, -, -, -, -⟩ := changeBothOk_parts hr
        intro a b
        rw [em]
        exact symIdx_insertPair g.edge_idx_map hs p q (fun l => some (l ++ [eidx]))
          _ _ rfl rfl a b

/-- `update_edge` preserves index symmetry. -/
theorem symIdx_update_edge {g g' : Graph} {u v : String} {w : Weight}
    {i : Option Nat} (hs : SymIdx g)
    (hr : (g.update_edge u v w i).toOption = some g') : SymIdx g' := by
  unfold Graph.update_edge at hr
  cases hu : g.node_idx_map u with
  | none =>
      simp only [hu, RustResult.toOption, Option.some_inj] at hr
      exact hr ▸ hs
  | some p =>
    simp only [hu] at hr
    cases hv : g.node_idx_map v with
    | none =>
        simp only [hv, RustResult.toOption, Option.some_inj] at hr
        exact hr ▸ hs
    | some q =>
      simp only [hv] at hr
      by_cases hc : ¬ g.g.containsEdge p q
      · rw [if_pos hc] at hr
        exact symIdx_add_edge hs hr
      · rw [if_neg hc] at hr
        cases hm : g.edge_idx_map (p, q) with
        | none => simp only [hm, RustResult.toOption] at hr; exact absurd hr (by simp)
        | some lst =>
          simp only [hm, Option.getD_some] at hr
          cases hl : lst[i.getD 0]? with
          | none => simp only [hl, RustResult.toOption] at hr; exact absurd hr (by simp)
          | some e0 =>
            simp only [hl] at hr
            cases hrec : g.g.edgeRecord e0 with
            | none => simp only [hrec, RustResult.toOption] at hr; exact absurd hr (by simp)
            | some pe =>
              simp only [hrec] at hr
              cases hupd : g.g.updateEdge p q w with
              | none => simp only [hupd, RustResult.toOption] at hr; exact absurd hr (by simp)
              | some pr =>
                obtain ⟨pg, e1⟩ := pr
                simp only [hupd] at hr
                cases hset1 : listSetPanics lst (i.getD 0) e1 with
                | none => simp only [hset1, RustResult.toOption] at hr; exact absurd hr (by simp)
                | some luv =>
                  simp only [hset1] at hr
                  cases hset2 : listSetPanics
                      (((mapInsert g.edge_idx_map (p, q) luv) (q, p)).getD [])
                      (i.getD 0) e1 with
                  | none => simp only [hset2, RustResult.toOption] at hr; exact absurd hr (by simp)
                  | some lvu =>
                    simp only [hset2] at hr
                    obtain ⟨em, -, -, -, -, -, -, -⟩ := changeBothOk_parts hr
                    intro a b
                    rw [em]
                    refine symIdx_insertPair g.edge_idx_map hs p q
                      (fun l => listSetPanics l (i.getD 0) e1) luv lvu ?_ hset2 a b
                    rw [hm, Option.getD_some]
                    exact hset1

/-- The `remove_all_parallel` loop never touches the two lookup maps. -/
theorem removeAllLoop_maps {p q : Nat} :
    ∀ {l : List Nat} {g g' : Graph}, Graph.removeAllLoop p q g l = some g' →
      g'.edge_idx_map = g.edge_idx_map ∧ g'.node_idx_map = g.node_idx_map
  | [], g, g', h => by
      unfold Graph.removeAllLoop at h
      simp only [Option.some_inj] at h
      subst h; exact ⟨rfl, rfl⟩
  | e :: rest, g, g', h => by
      unfold Graph.removeAllLoop at h
      cases hrec : g.g.edgeRecord e with
      | none => rw [hrec] at h; exact absurd h (by simp)
      | some pe =>
        simp only [hrec] at h
        cases hc1 : Graph.change_node_opt_weight
            { g with g := g.g.removeEdge e } p (-pe.weight) with
        | none => rw [hc1] at h; exact absurd h (by simp)
        | some g2 =>
          simp only [hc1] at h
          cases hc2 : g2.change_node_opt_weight q (-pe.weight) with
          | none => rw [hc2] at h; exact absurd h (by simp)
          | some g3 =>
            simp only [hc2] at h
            obtain ⟨e3, n3⟩ := removeAllLoop_maps h
            obtain ⟨e1, n1, -, -, -, -, -, -⟩ := change_node_opt_weight_parts hc1
            obtain ⟨e2, n2, -, -, -, -, -, -⟩ := change_node_opt_weight_parts hc2
            exact ⟨e3.trans (e2.trans e1), n3.trans (n2.trans n1)⟩

/-- `remove_edge` preserves index symmetry. -/
theorem symIdx_remove_edge {g g' : Graph} {u v : String} {i : Option Nat}
    {all : Option Bool} (hs : SymIdx g)
    (hr : (g.remove_edge u v i all).toOption = some g') : SymIdx g' := by
  unfold Graph.remove_edge at hr
  cases hu : g.node_idx_map u with
  | none =>
      simp only [hu, RustResult.toOption, Option.some_inj] at hr
      exact hr ▸ hs
  | some p =>
    simp only [hu] at hr
    cases hv : g.node_idx_map v with
    | none =>
        simp only [hv, RustResult.toOption, Option.some_inj] at hr
        exact hr ▸ hs
    | some q =>
      simp only [hv] at hr
      by_cases hc : ¬ g.g.containsEdge p q
      · rw [if_pos hc] at hr
        simp only [RustResult.toOption, Option.some_inj] at hr
        exact hr ▸ hs
      · rw [if_neg hc] at hr
        cases hm : g.edge_idx_map (p, q) with
        | none => simp only [hm, RustResult.toOption] at hr; exact absurd hr (by simp)
        | some lst =>
          simp only [hm, Option.getD_some] at hr
          by_cases hall : ¬ (all.getD false) = true
          · rw [if_pos hall] at hr
            cases hl : lst[i.getD 0]? with
            | none => simp only [hl, RustResult.toOption] at hr; exact absurd hr (by simp)
            | some e =>
              simp only [hl] at hr
              cases hrec : g.g.edgeRecord e with
              | none => simp only [hrec, RustResult.toOption] at hr; exact absurd hr (by simp)
              | some pe =>
                simp only [hrec] at hr
                cases hsw1 : swapRemove ((g.edge_idx_map (q, p)).getD []) (i.getD 0) with
                | none => simp only [hsw1, RustResult.toOption] at hr; exact absurd hr (by simp)
                | some lvu =>
                  simp only [hsw1] at hr
                  cases hsw2 : swapRemove
                      (((mapInsert g.edge_idx_map (q, p) lvu) (p, q)).getD [])
                      (i.getD 0) with
                  | none => simp only [hsw2, RustResult.toOption] at hr; exact absurd hr (by simp)
                  | some luv =>
                    simp only [hsw2] at hr
                    obtain ⟨em, -, -, -, -, -, -, -⟩ := changeBothOk_parts hr
                    intro a b
                    rw [em]
                    exact symIdx_insertPair g.edge_idx_map hs q p
                      (fun l => swapRemove l (i.getD 0)) lvu luv hsw1 hsw2 a b
          · rw [if_neg hall] at hr
            cases hloop : Graph.removeAllLoop p q g lst with
            | none => simp only [hloop, RustResult.toOption] at hr; exact absurd hr (by simp)
            | some g1 =>
              simp only [hloop, RustResult.toOption, Option.some_inj] at hr
              obtain ⟨e1, -⟩ := removeAllLoop_maps hloop
              subst hr
              intro a b
              show mapRemove (mapRemove g1.edge_idx_map (p, q)) (q, p) (a, b)
                = mapRemove (mapRemove g1.edge_idx_map (p, q)) (q, p) (b, a)
              rw [e1]
              exact symIdx_removePair g.edge_idx_map hs p q a b

/-- One operation preserves index symmetry. -/
theorem symIdx_applyOp {g g' : Graph} {op : GOp} (hs : SymIdx g)
    (h : applyOp g op = some g') : SymIdx g' := by
  cases op with
  | addNode n =>
      simp only [applyOp, Option.some_inj] at h
      subst h
      exact hs
  | addEdge u v w => exact symIdx_add_edge hs h
  | updateEdge u v w i => exact symIdx_update_edge hs h
  | removeEdge u v i a => exact symIdx_remove_edge hs h

/-- A whole sequence preserves index symmetry. -/
theorem symIdx_runOps : ∀ {ops : List GOp} {g g' : Graph}, SymIdx g →
    runOps g ops = some g' → SymIdx g'
  | [], g, g', hs, h => by
      unfold runOps at h
      simp only [Option.some_inj] at h
      exact h ▸ hs
  | op :: rest, g, g', hs, h => by
      unfold runOps at h
      cases ha : applyOp g op with
      | none => rw [ha] at h; exact absurd h (by simp)
      | some g1 =>
          simp only [ha] at h
          exact symIdx_runOps (symIdx_applyOp hs ha) h

/-- C3: after any finite sequence of `add_node`/`add_edge`/`update_edge`/
`remove_edge` operations run from `Graph::new` (aborting on a panic), the
`edge_idx_map` entries under `(a, b)` and `(b, a)` are equal for every
ordered pair of handles — in particular the stored edge-handle sets
coincide.  Both direction entries are always written through the same
read-modify-write pair, so pointwise symmetry is an invariant. -/
theorem c3_edge_index_symmetry (ops : List GOp) (g' : Graph)
    (h : runOps Graph.new ops = some g') (a b : Nat) :
    g'.edge_idx_map (a, b) = g'.edge_idx_map (b, a) :=
  symIdx_runOps (fun _ _ => rfl) h a b

/-- C3, witnessed on a concrete sequence exercising all three edge
mutations. -/
theorem c3_edge_index_symmetry_witness :
    runOps Graph.new c3Ops = some c3Final ∧
    c3Final.edge_idx_map (0, 1) = c3Final.edge_idx_map (1, 0) :=
  ⟨rfl, c3_edge_index_symmetry c3Ops c3Final rfl 0 1⟩

/-- `swap_remove` is, as a multiset operation, removal at the index. -/
theorem swapRemove_perm {α : Type} {l : List α} {i : Nat} {l' : List α}
    (h : swapRemove l i = some l') : l'.Perm (l.eraseIdx i) := by
  unfold swapRemove at h
  cases hlast : l.getLast? with
  | none =>
      simp only [hlast] at h
      exact absurd h (by simp)
  | some a =>
    simp only [hlast] at h
    by_cases hi : i < l.length
    · rw [if_pos hi, Option.some_inj] at h
      subst h
      obtain ⟨ys, rfl⟩ := List.getLast?_eq_some_iff.mp hlast
      rw [List.length_append, List.length_singleton] at hi
      rcases Nat.lt_or_ge i ys.length with hlt | hge
      · rw [List.set_append_left _ _ hlt, List.dropLast_concat,
          List.eraseIdx_append_of_lt_length hlt]
        rw [List.set_eq_take_append_cons_drop, if_pos hlt,
          List.eraseIdx_eq_take_drop_succ]
        exact List.perm_middle.trans (List.perm_append_singleton _ _).symm
      · have hi' : i = ys.length := by omega
        subst hi'
        rw [List.set_append_right _ _ (Nat.le_refl _), Nat.sub_self]
        have hset : ([a] : List α).set 0 a = [a] := rfl
        rw [hset, List.dropLast_concat,
          List.eraseIdx_append_of_length_le (Nat.le_refl _), Nat.sub_self]
        simp
    · rw [if_neg hi] at h
      exact absurd h (by simp)

/-- Evaluating `nodeWeight` after `StableGraph::add_node`. -/
theorem PGraph.nodeWeight_addNode (pg : PGraph) (n : Node) (j : Nat) :
    (pg.addNode n).1.nodeWeight j =
      if j = pg.nextNode then some n else pg.nodeWeight j := by
  unfold PGraph.addNode PGraph.nodeWeight
  simp only [List.find?_cons]
  by_cases h : j = pg.nextNode
  · subst h; simp
  · have hb : (pg.nextNode == j) = false := by
      simp only [beq_eq_false_iff_ne, Ne]
      exact fun hc => h hc.symm
    rw [hb, if_neg h]

/-- An option holds a node named `s` iff its name projection is `s`. -/
theorem exists_name_iff (o : Option Node) (s : String) :
    (∃ nd, o = some nd ∧ nd.name = s) ↔ o.map Node.name = some s := by
  cases o <;> simp

/-- `contains_edge` agrees with nonemptiness of `edgesBetween`. -/
theorem containsEdge_iff {pg : PGraph} {a b : Nat} :
    pg.containsEdge a b = true ↔ edgesBetween pg a b ≠ [] := by
  have hne : edgesBetween pg a b ≠ [] ↔ ∃ e ∈ pg.edges,
      ((e.node0 == a && e.node1 == b) || (e.node0 == b && e.node1 == a)) = true := by
    unfold edgesBetween
    rw [Ne, List.filter_eq_nil_iff]
    push_neg
    constructor
    · rintro ⟨e, he, hp⟩; exact ⟨e, he, hp⟩
    · rintro ⟨e, he, hp⟩; exact ⟨e, he, hp⟩
  rw [hne]
  unfold PGraph.containsEdge PGraph.findEdgeUndirected
  cases h1 : pg.edges.find? (fun e => e.node0 == a && e.node1 == b) with
  | some e =>
      simp only [Option.isSome_some, true_iff]
      refine ⟨e, List.mem_of_find?_eq_some h1, ?_⟩
      have hp1 := List.find?_some h1
      rw [Bool.or_eq_true]
      exact Or.inl hp1
  | none =>
      simp only
      cases h2 : pg.edges.find? (fun e => e.node1 == a && e.node0 == b) with
      | some e =>
          simp only [Option.map_some', Option.isSome_some, true_iff]
          refine ⟨e, List.mem_of_find?_eq_some h2, ?_⟩
          have hp2 := List.find?_some h2
          simp only [Bool.and_eq_true, beq_iff_eq] at hp2
          simp [hp2.1, hp2.2]
      | none =>
          simp only [Option.map_none', Option.isSome_none, Bool.false_eq_true, false_iff]
          rintro ⟨e, he, hp⟩
          rw [List.find?_eq_none] at h1 h2
          rw [Bool.or_eq_true, Bool.and_eq_true, Bool.and_eq_true] at hp
          rcases hp with ⟨hp0, hp1⟩ | ⟨hp0, hp1⟩
          · exact h1 e he (by rw [Bool.and_eq_true]; exact ⟨hp0, hp1⟩)
          · exact h2 e he (by rw [Bool.and_eq_true]; exact ⟨hp1, hp0⟩)

/-- The `neighbors_undirected` walk is, as a multiset, one entry per
incident edge, valued at the other endpoint (no self loops). -/
theorem neighbors_list_perm (E : List PEdge) (n : Nat)
    (hns : ∀ e ∈ E, e.node0 ≠ e.node1) :
    ((E.filter (fun e => e.node0 == n)).map (·.node1) ++
     (E.filter (fun e => e.node1 == n && e.node0 != n)).map (·.node0)).Perm
    ((E.filter (incTo n)).map (otherEnd n)) := by
  induction E with
  | nil => simp
  | cons e E' ih =>
      have ih' := ih (fun x hx => hns x (List.mem_cons_of_mem e hx))
      by_cases h0 : e.node0 = n
      · have h1 : e.node1 ≠ n := fun hc =>
          hns e (List.mem_cons_self e E') (by rw [h0, hc])
        rw [List.filter_cons_of_pos (by simp [h0]),
          List.filter_cons_of_neg (by simp [h1]),
          List.filter_cons_of_pos (by simp [incTo, h0])]
        simp only [List.map_cons, List.cons_append]
        have hoe : otherEnd n e = e.node1 := by simp [otherEnd, h0]
        rw [hoe]
        exact ih'.cons _
      · by_cases h1 : e.node1 = n
        · rw [List.filter_cons_of_neg (by simp [h0]),
            List.filter_cons_of_pos (by simp [h1, h0]),
            List.filter_cons_of_pos (by simp [incTo, h1])]
          simp only [List.map_cons]
          have hoe : otherEnd n e = e.node0 := by simp [otherEnd, h0]
          rw [hoe]
          exact List.perm_middle.trans (ih'.cons _)
        · rw [List.filter_cons_of_neg (by simp [h0]),
            List.filter_cons_of_neg (by simp [h1]),
            List.filter_cons_of_neg (by simp [incTo, h0, h1])]
          exact ih'

/-- With distinct edge ids, `edge_weight` of a member's id finds exactly that
member. -/
theorem find?_eid (E : List PEdge) (hnd : (E.map (·.eid)).Nodup)
    {e : PEdge} (he : e ∈ E) : E.find? (fun x => x.eid == e.eid) = some e := by
  induction E with
  | nil => cases he
  | cons x E' ih =>
      rw [List.map_cons, List.nodup_cons] at hnd
      rw [List.find?_cons]
      rcases List.mem_cons.mp he with rfl | he'
      · simp
      · have hxe : (x.eid == e.eid) = false := by
          rw [beq_eq_false_iff_ne, Ne]
          intro hc
          exact hnd.1 (hc ▸ List.mem_map_of_mem (·.eid) he')
        rw [hxe]
        exact ih hnd.2 he'

/-- Removing one member by its (unique) id is `erase`, as a multiset
operation. -/
theorem filter_ne_eid_perm_erase {E : List PEdge} (hnd : (E.map (·.eid)).Nodup)
    {e : PEdge} (he : e ∈ E) :
    (E.filter (fun x => x.eid != e.eid)).Perm (E.erase e) := by
  induction E with
  | nil => cases he
  | cons x E' ih =>
      rw [List.map_cons, List.nodup_cons] at hnd
      rcases List.mem_cons.mp he with rfl | he'
      · rw [List.erase_cons_head, List.filter_cons_of_neg (by simp)]
        rw [List.filter_eq_self.mpr]
        intro y hy
        rw [bne_iff_ne, Ne]
        intro hc
        exact hnd.1 (hc ▸ List.mem_map_of_mem (·.eid) hy)
      · have hxe : x ≠ e := by
          intro hc
          exact hnd.1 (hc ▸ List.mem_map_of_mem (·.eid) he')
        rw [List.erase_cons_tail (by simp [hxe])]
        rw [List.filter_cons_of_pos (by
          rw [bne_iff_ne, Ne]
          intro hc
          exact hnd.1 (hc ▸ List.mem_map_of_mem (·.eid) he'))]
        exact (ih hnd.2 he').cons x

/-- `mapInsert` misses a different key. -/
theorem mapInsert_ne {α β : Type} [DecidableEq α] (m : α → Option β) {k k' : α}
    (v : β) (h : k' ≠ k) : mapInsert m k v k' = m k' := by
  rw [mapInsert, if_neg h]

/-- `swap_remove` succeeds on an in-range index. -/
theorem swapRemove_exists {α : Type} {l : List α} {i : Nat} (h : i < l.length) :
    ∃ l', swapRemove l i = some l' := by
  unfold swapRemove
  cases hlast : l.getLast? with
  | none =>
      rw [List.getLast?_eq_none_iff] at hlast
      subst hlast
      simp at h
  | some a => exact ⟨(l.set i a).dropLast, by simp only [if_pos h]⟩

/-- `change_node_opt_weight` succeeds on an occupied slot. -/
theorem change_node_some {g : Graph} {i : Nat} (w : Weight)
    (h : (g.g.nodeWeight i).isSome = true) :
    ∃ g2, g.change_node_opt_weight i w = some g2 := by
  unfold Graph.change_node_opt_weight
  cases hw : g.g.nodeWeight i with
  | none => rw [hw] at h; simp at h
  | some nd => exact ⟨_, rfl⟩

/-- The double degree rewrite succeeds on two occupied slots. -/
theorem changeBothOk_ok (g1 : Graph) {p q : Nat} (w1 w2 : Weight)
    (hp : (g1.g.nodeWeight p).isSome = true)
    (hq : (g1.g.nodeWeight q).isSome = true) :
    ∃ g', g1.changeBothOk p q w1 w2 = RustResult.ok g' := by
  obtain ⟨g2, h2⟩ := change_node_some w1 hp
  obtain ⟨-, -, -, -, -, -, is2, -⟩ := change_node_opt_weight_parts h2
  obtain ⟨g3, h3⟩ := change_node_some w2 (by rw [is2 q]; exact hq)
  refine ⟨g3, ?_⟩
  unfold Graph.changeBothOk
  simp only [h2, h3]

/-- `edgesBetween` is symmetric in its key pair. -/
theorem edgesBetween_comm (pg : PGraph) (a b : Nat) :
    edgesBetween pg a b = edgesBetween pg b a := by
  unfold edgesBetween
  refine List.filter_congr ?_
  intro e _
  rw [Bool.or_comm]

/-- Filters commute. -/
theorem filter_comm' {α : Type} (p q : α → Bool) (l : List α) :
    (l.filter p).filter q = (l.filter q).filter p := by
  rw [List.filter_filter, List.filter_filter]
  exact List.filter_congr fun a _ => Bool.and_comm _ _

/-- Edge-id lists of `edgesBetween` inherit distinctness. -/
theorem edgesBetween_eid_nodup {pg : PGraph}
    (hnd : (pg.edges.map (·.eid)).Nodup) (a b : Nat) :
    ((edgesBetween pg a b).map (·.eid)).Nodup :=
  ((List.filter_sublist pg.edges).map (·.eid)).nodup hnd

/-- Two edges of the same unordered pairs of endpoints: the pairs agree. -/
theorem between_endpoints {e : PEdge} {a b p q : Nat}
    (hab : ((e.node0 == a && e.node1 == b) || (e.node0 == b && e.node1 == a)) = true)
    (hpq : ((e.node0 == p && e.node1 == q) || (e.node0 == q && e.node1 == p)) = true) :
    (a = p ∧ b = q) ∨ (a = q ∧ b = p) := by
  simp only [Bool.or_eq_true, Bool.and_eq_true, beq_iff_eq] at hab hpq
  rcases hab with ⟨h1, h2⟩ | ⟨h1, h2⟩ <;> rcases hpq with ⟨h3, h4⟩ | ⟨h3, h4⟩ <;> omega

/-- `keyBij` transfers along name- and map-preserving steps. -/
theorem keyBij_transfer {g g' : Graph}
    (hb : ∀ s i, g.node_idx_map s = some i ↔
      ∃ nd, g.g.nodeWeight i = some nd ∧ nd.name = s)
    (hmap : g'.node_idx_map = g.node_idx_map)
    (hname : ∀ j, (g'.g.nodeWeight j).map Node.name
      = (g.g.nodeWeight j).map Node.name) :
    ∀ s i, g'.node_idx_map s = some i ↔
      ∃ nd, g'.g.nodeWeight i = some nd ∧ nd.name = s := by
  intro s i
  rw [hmap, hb s i, exists_name_iff, exists_name_iff, hname i]

/-- One coherent single-edge removal: `remove_edge(u, v, None, Some(false))`
removes exactly one edge between the handles of `u` and `v` (the one at the
head of the stored parallel list), leaves the node map and all node
names/occupancies alone, and re-establishes coherence. -/
theorem remove_edge_single_spec {g : Graph} (hwf : WF g) {uname vname : String}
    {p q : Nat} (hu : g.node_idx_map uname = some p)
    (hv : g.node_idx_map vname = some q) (hpq : p ≠ q)
    (hne : edgesBetween g.g p q ≠ []) :
    ∃ e g', e ∈ edgesBetween g.g p q ∧
      g.remove_edge uname vname none (some false) = RustResult.ok g' ∧
      g'.g.edges = g.g.edges.filter (fun x => x.eid != e.eid) ∧
      g'.node_idx_map = g.node_idx_map ∧
      (∀ j, (g'.g.nodeWeight j).map Node.name = (g.g.nodeWeight j).map Node.name) ∧
      (∀ j, (g'.g.nodeWeight j).isSome = (g.g.nodeWeight j).isSome) ∧
      WF g' := by
  have hsound := hwf.idxSound p q hpq
  cases hm : g.edge_idx_map (p, q) with
  | none =>
      exfalso
      rw [hm, Option.getD_none] at hsound
      exact hne (List.map_eq_nil_iff.mp (List.nil_perm.mp hsound))
  | some lst =>
    rw [hm, Option.getD_some] at hsound
    have hlstne : lst ≠ [] := by
      intro h0
      rw [h0] at hsound
      exact hne (List.map_eq_nil_iff.mp (List.nil_perm.mp hsound))
    obtain ⟨x, t, rfl⟩ := List.exists_cons_of_ne_nil hlstne
    have hxmem : x ∈ (edgesBetween g.g p q).map (·.eid) :=
      hsound.mem_iff.mp (List.mem_cons_self x t)
    obtain ⟨e, heB, hex⟩ := List.mem_map.mp hxmem
    subst hex
    have heE : e ∈ g.g.edges := List.mem_of_mem_filter heB
    have hrec : g.g.edgeRecord e.eid = some e :=
      find?_eid g.g.edges hwf.eidNodup heE
    have hmqp : g.edge_idx_map (q, p) = some (e.eid :: t) := by
      rw [hwf.symmIdx q p, hm]
    obtain ⟨lvu, hsw⟩ := @swapRemove_exists Nat (e.eid :: t) 0 (by simp)
    have hlvu_perm : lvu.Perm t := by simpa using swapRemove_perm hsw
    have hop : (g.g.nodeWeight p).isSome = true := by
      obtain ⟨nd, hnd, -⟩ := (hwf.keyBij uname p).mp hu
      rw [hnd]; rfl
    have hoq : (g.g.nodeWeight q).isSome = true := by
      obtain ⟨nd, hnd, -⟩ := (hwf.keyBij vname q).mp hv
      rw [hnd]; rfl
    have hqp_ne : ((p, q) : Nat × Nat) ≠ (q, p) := by
      rw [Ne, Prod.mk.injEq]
      rintro ⟨h1, -⟩
      exact hpq h1
    have hopm : ((g.g.removeEdge e.eid).nodeWeight p).isSome = true := hop
    have hoqm : ((g.g.removeEdge e.eid).nodeWeight q).isSome = true := hoq
    obtain ⟨g', hok⟩ := changeBothOk_ok { g with g := g.g.removeEdge e.eid, edge_idx_map := mapInsert (mapInsert g.edge_idx_map (q, p) lvu) (p, q) lvu } (-e.weight) (-e.weight) hopm hoqm
    have hcont : g.g.containsEdge p q = true := containsEdge_iff.mpr hne
    have heq : g.remove_edge uname vname none (some false) = RustResult.ok g' := by
      unfold Graph.remove_edge
      simp only [hu, hv]
      rw [if_neg (by simp [hcont])]
      simp only [hm]
      rw [if_pos (by simp)]
      simp only [Option.getD_none, Option.getD_some, List.getElem?_cons_zero, hrec]
      simp only [hmqp, Option.getD_some, hsw]
      simp only [mapInsert_ne _ _ hqp_ne, hm, Option.getD_some, hsw]
      exact hok
    obtain ⟨em, nm, ed, nn, ne2, nname, nis, nkeys⟩ :=
      changeBothOk_parts (congrArg RustResult.toOption hok)
    have hedges : g'.g.edges = g.g.edges.filter (fun y => y.eid != e.eid) := ed
    have hnm : g'.node_idx_map = g.node_idx_map := nm
    have hnn : g'.g.nextNode = g.g.nextNode := nn
    have hne2 : g'.g.nextEdge = g.g.nextEdge := ne2
    have hnkeys : g'.g.nodes.map (·.1) = g.g.nodes.map (·.1) := nkeys
    have hnname : ∀ j, (g'.g.nodeWeight j).map Node.name
        = (g.g.nodeWeight j).map Node.name := nname
    have hnis : ∀ j, (g'.g.nodeWeight j).isSome = (g.g.nodeWeight j).isSome := nis
    refine ⟨e, g', heB, heq, hedges, hnm, hnname, hnis, ?_⟩
    -- re-establish coherence
    have hbetween : ∀ a b : Nat, edgesBetween g'.g a b
        = (edgesBetween g.g a b).filter (fun y => y.eid != e.eid) := by
      intro a b
      unfold edgesBetween
      rw [hedges, filter_comm']
    have hMain : lvu.Perm
        (((edgesBetween g.g p q).filter (fun y => y.eid != e.eid)).map (·.eid)) := by
      have hnodupB := edgesBetween_eid_nodup hwf.eidNodup p q
      have hfe : ((edgesBetween g.g p q).filter (fun y => y.eid != e.eid)).Perm
          ((edgesBetween g.g p q).erase e) := filter_ne_eid_perm_erase hnodupB heB
      have hx1 : ((edgesBetween g.g p q).map (·.eid)).Perm
          (e.eid :: ((edgesBetween g.g p q).erase e).map (·.eid)) :=
        (List.perm_cons_erase heB).map _
      have ht : t.Perm (((edgesBetween g.g p q).erase e).map (·.eid)) :=
        (hsound.trans hx1).cons_inv
      exact hlvu_perm.trans (ht.trans (hfe.map (·.eid)).symm)
    refine ⟨keyBij_transfer hwf.keyBij hnm hnname, ?_, ?_, ?_, ?_, ?_, ?_, ?_⟩
    · rw [hedges]
      exact ((List.filter_sublist _).map _).nodup hwf.eidNodup
    · intro y hy
      rw [hedges] at hy
      exact hwf.noSelfLoop y (List.mem_of_mem_filter hy)
    · intro y hy
      rw [hedges] at hy
      have h0 := hwf.edgeEnds y (List.mem_of_mem_filter hy)
      rw [hnis y.node0, hnis y.node1]
      exact h0
    · exact symIdx_remove_edge hwf.symmIdx (by rw [heq]; rfl)
    · intro a b hab
      have hem : g'.edge_idx_map
          = mapInsert (mapInsert g.edge_idx_map (q, p) lvu) (p, q) lvu := em
      rw [hem, hbetween a b]
      by_cases h1 : ((a, b) : Nat × Nat) = (p, q)
      · rw [Prod.mk.injEq] at h1
        obtain ⟨rfl, rfl⟩ := h1
        rw [mapInsert, if_pos rfl, Option.getD_some]
        exact hMain
      · by_cases h2 : ((a, b) : Nat × Nat) = (q, p)
        · rw [Prod.mk.injEq] at h2
          obtain ⟨rfl, rfl⟩ := h2
          rw [mapInsert, if_neg (Ne.symm hqp_ne), mapInsert, if_pos rfl,
            Option.getD_some, edgesBetween_comm]
          exact hMain
        · rw [mapInsert, if_neg h1, mapInsert, if_neg h2]
          have hsame : (edgesBetween g.g a b).filter (fun y => y.eid != e.eid)
              = edgesBetween g.g a b := by
            rw [List.filter_eq_self]
            intro y hy
            rw [bne_iff_ne, Ne]
            intro hc
            have hyF := hy
            unfold edgesBetween at hyF
            have hyE : y ∈ g.g.edges := List.mem_of_mem_filter hyF
            have hye : y = e := List.inj_on_of_nodup_map hwf.eidNodup hyE heE hc
            subst hye
            have heBF := heB
            unfold edgesBetween at heBF
            have hA := List.of_mem_filter hyF
            have hB := List.of_mem_filter heBF
            rcases between_endpoints hA hB with ⟨rfl, rfl⟩ | ⟨rfl, rfl⟩
            · exact h1 rfl
            · exact h2 rfl
          rw [hsame]
          exact hwf.idxSound a b hab
    · intro pr hpr
      have hmem : pr.1 ∈ g'.g.nodes.map (·.1) := List.mem_map_of_mem _ hpr
      rw [hnkeys] at hmem
      obtain ⟨pr0, hpr0, hfst⟩ := List.mem_map.mp hmem
      rw [hnn, ← hfst]
      exact hwf.freshNode pr0 hpr0
    · intro y hy
      rw [hedges] at hy
      rw [hne2]
      exact hwf.freshEdge y (List.mem_of_mem_filter hy)

/-- An edge between distinct `a` and `b` is incident to `a` and its other
endpoint is `b`. -/
theorem between_otherEnd {e : PEdge} {a b : Nat} (hab : a ≠ b)
    (h : ((e.node0 == a && e.node1 == b) || (e.node0 == b && e.node1 == a)) = true) :
    otherEnd a e = b ∧ incTo a e = true := by
  simp only [Bool.or_eq_true, Bool.and_eq_true, beq_iff_eq] at h
  rcases h with ⟨h0, h1⟩ | ⟨h0, h1⟩
  · refine ⟨?_, by simp [incTo, h0]⟩
    rw [otherEnd, if_pos (by simp [h0])]
    exact h1
  · refine ⟨?_, by simp [incTo, h1]⟩
    rw [otherEnd, if_neg (by rw [h0]; simp [Ne.symm hab])]
    exact h0

/-- The edge-removal loop of `remove_node`: processing a neighbor snapshot
(one entry per incident edge, by multiplicity) removes exactly the incident
edges, touching nothing else. -/
theorem removeNodeLoop_spec (uname : String) (n : Nat) :
    ∀ (nbrs : List Nat) (g : Graph), WF g →
      g.node_idx_map uname = some n →
      nbrs.Perm (g.g.neighborsUndirected n) →
      ∃ g', Graph.removeNodeLoop uname g nbrs = some g' ∧ WF g' ∧
        g'.g.edges = g.g.edges.filter (fun e => !(incTo n e)) ∧
        g'.node_idx_map = g.node_idx_map ∧
        (∀ j, (g'.g.nodeWeight j).map Node.name
          = (g.g.nodeWeight j).map Node.name)
  | [], g, hwf, hu, hperm => by
      refine ⟨g, rfl, hwf, ?_, rfl, fun j => rfl⟩
      have hnb : g.g.neighborsUndirected n = [] := List.nil_perm.mp hperm
      have h2 : (g.g.neighborsUndirected n).Perm
          ((g.g.edges.filter (incTo n)).map (otherEnd n)) :=
        neighbors_list_perm g.g.edges n hwf.noSelfLoop
      rw [hnb] at h2
      have h4 : g.g.edges.filter (incTo n) = [] :=
        List.map_eq_nil_iff.mp (List.nil_perm.mp h2)
      refine (List.filter_eq_self.mpr ?_).symm
      intro e he
      rw [Bool.not_eq_true']
      cases hI : incTo n e with
      | false => rfl
      | true =>
          exfalso
          have : e ∈ g.g.edges.filter (incTo n) := List.mem_filter.mpr ⟨he, hI⟩
          rw [h4] at this
          cases this
  | v :: rest, g, hwf, hu, hperm => by
      have hvmem : v ∈ g.g.neighborsUndirected n :=
        hperm.mem_iff.mp (List.mem_cons_self v rest)
      have h2 : (g.g.neighborsUndirected n).Perm
          ((g.g.edges.filter (incTo n)).map (otherEnd n)) :=
        neighbors_list_perm g.g.edges n hwf.noSelfLoop
      have hvmem2 : v ∈ (g.g.edges.filter (incTo n)).map (otherEnd n) :=
        h2.mem_iff.mp hvmem
      obtain ⟨einc, heincF, hoe⟩ := List.mem_map.mp hvmem2
      have heincE : einc ∈ g.g.edges := List.mem_of_mem_filter heincF
      have hincT : incTo n einc = true := List.of_mem_filter heincF
      have hns := hwf.noSelfLoop einc heincE
      have hnv : n ≠ v := by
        intro hc
        subst hc
        rw [incTo, Bool.or_eq_true, beq_iff_eq, beq_iff_eq] at hincT
        rw [otherEnd] at hoe
        by_cases h0 : einc.node0 = n
        · rw [if_pos (by simp [h0])] at hoe
          exact hns (by rw [h0, hoe])
        · rw [if_neg (by simp [h0])] at hoe
          exact h0 hoe
      have hbetw : einc ∈ edgesBetween g.g n v := by
        unfold edgesBetween
        rw [List.mem_filter]
        refine ⟨heincE, ?_⟩
        rw [incTo, Bool.or_eq_true, beq_iff_eq, beq_iff_eq] at hincT
        rw [otherEnd] at hoe
        by_cases h0 : einc.node0 = n
        · rw [if_pos (by simp [h0])] at hoe
          simp [h0, hoe]
        · rw [if_neg (by simp [h0])] at hoe
          rcases hincT with h1 | h1
          · exact absurd h1 h0
          · simp [hoe, h1]
      have hneB : edgesBetween g.g n v ≠ [] := by
        intro h0
        rw [h0] at hbetw
        cases hbetw
      have hvsome : (g.g.nodeWeight v).isSome = true := by
        have hends := hwf.edgeEnds einc heincE
        rw [otherEnd] at hoe
        by_cases h0 : (einc.node0 == n) = true
        · rw [if_pos h0] at hoe
          rw [← hoe]
          exact hends.2
        · rw [if_neg h0] at hoe
          rw [← hoe]
          exact hends.1
      obtain ⟨ndv, hndv⟩ := Option.isSome_iff_exists.mp hvsome
      have hvname : g.node_idx_map ndv.name = some v :=
        (hwf.keyBij ndv.name v).mpr ⟨ndv, hndv, rfl⟩
      obtain ⟨e, g1, heB2, heq, hed, hmap, hname, his, hwf1⟩ :=
        remove_edge_single_spec hwf hu hvname hnv hneB
      -- the removed edge is incident to n with other endpoint v
      have heB2F := heB2
      unfold edgesBetween at heB2F
      have heE : e ∈ g.g.edges := List.mem_of_mem_filter heB2F
      have heP := List.of_mem_filter heB2F
      obtain ⟨hoeE, hincE⟩ := between_otherEnd hnv heP
      have heF : e ∈ g.g.edges.filter (incTo n) := List.mem_filter.mpr ⟨heE, hincE⟩
      -- permutation bookkeeping for the tail call
      have hnodupF : ((g.g.edges.filter (incTo n)).map (·.eid)).Nodup :=
        ((List.filter_sublist _).map _).nodup hwf.eidNodup
      have hperm1 : rest.Perm (g1.g.neighborsUndirected n) := by
        have hstep1 : (g.g.edges.filter (incTo n)).Perm
            (e :: (g.g.edges.filter (incTo n)).erase e) := List.perm_cons_erase heF
        have hchain : (v :: rest).Perm
            (v :: ((g.g.edges.filter (incTo n)).erase e).map (otherEnd n)) := by
          refine (hperm.trans (h2.trans (hstep1.map _))).trans ?_
          rw [List.map_cons, hoeE]
        have hrest : rest.Perm
            (((g.g.edges.filter (incTo n)).erase e).map (otherEnd n)) :=
          hchain.cons_inv
        have hg1 : (g1.g.neighborsUndirected n).Perm
            ((g1.g.edges.filter (incTo n)).map (otherEnd n)) :=
          neighbors_list_perm g1.g.edges n hwf1.noSelfLoop
        have hg1f : (g1.g.edges.filter (incTo n)).Perm
            ((g.g.edges.filter (incTo n)).erase e) := by
          rw [hed, filter_comm']
          exact filter_ne_eid_perm_erase hnodupF heF
        exact hrest.trans ((hg1.trans (hg1f.map _)).symm)
      have hu1 : g1.node_idx_map uname = some n := by rw [hmap]; exact hu
      obtain ⟨g2, hloop, hwf2, hed2, hmap2, hname2⟩ :=
        removeNodeLoop_spec uname n rest g1 hwf1 hu1 hperm1
      refine ⟨g2, ?_, hwf2, ?_, hmap2.trans hmap,
        fun j => (hname2 j).trans (hname j)⟩
      · unfold Graph.removeNodeLoop
        simp only [hndv, heq, RustResult.toOption]
        exact hloop
      · rw [hed2, hed, List.filter_filter]
        refine List.filter_congr ?_
        intro y hy
        cases hI : incTo n y with
        | true => simp [hI]
        | false =>
            simp only [hI, Bool.not_false, Bool.true_and]
            rw [bne_iff_ne, Ne]
            intro hc
            have hye : y = e := List.inj_on_of_nodup_map hwf.eidNodup hy heE hc
            rw [hye, hincE] at hI
            cases hI

/-- `StableGraph::remove_node` vacates the slot. -/
theorem PGraph.nodeWeight_removeNode_self (pg : PGraph) (i : Nat) :
    (pg.removeNode i).nodeWeight i = none := by
  unfold PGraph.removeNode PGraph.nodeWeight
  simp only
  rw [List.find?_eq_none.mpr, Option.map_none']
  intro p hp
  have := List.of_mem_filter hp
  rw [bne_iff_ne, Ne] at this
  simp only [beq_iff_eq]
  exact this

/-- For distinct `a` and `c`, incidence to both means being between them. -/
theorem inc_and_inc_eq_between {y : PEdge} {a c : Nat} (hac : a ≠ c) :
    (incTo a y && incTo c y)
      = ((y.node0 == a && y.node1 == c) || (y.node0 == c && y.node1 == a)) := by
  have hbool : ∀ x z : Bool, (x = true ↔ z = true) → x = z := by decide
  apply hbool
  simp only [incTo, Bool.or_eq_true, Bool.and_eq_true, beq_iff_eq]
  constructor
  · rintro ⟨h01 | h11, h02 | h12⟩
    · exact absurd (h01.symm.trans h02) hac
    · exact Or.inl ⟨h01, h12⟩
    · exact Or.inr ⟨h02, h11⟩
    · exact absurd (h11.symm.trans h12) hac
  · rintro (⟨h1, h2⟩ | ⟨h1, h2⟩)
    · exact ⟨Or.inl h1, Or.inr h2⟩
    · exact ⟨Or.inr h2, Or.inl h1⟩

/-- C7, counterexample to the unconditional claim: the state reached through
the public API by `add_node(u); add_node(v); add_edge(u,v,1.0);
add_edge(u,v,2.0); update_edge(u,v,10.0,Some(0))` has node `u` (handle 0)
live with two incident edges, yet `remove_node(u)` panics instead of
removing them: `update_edge` left both index entries as `[1,1]`, so the
neighbour snapshot is `[v,v]`; the first `remove_edge` removes edge 1 (the
most recently added), and the second iteration still passes
`contains_edge` (edge 0 survives) but unwraps `edge_weight` of the
already-removed edge 1. -/
theorem c7_remove_node_panics_on_reachable_state :
    (gUV.add_edge "u" "v" 1).toOption = some gUV1 ∧
    (gUV1.add_edge "u" "v" 2).toOption = some gUV12 ∧
    (gUV12.update_edge "u" "v" 10 (some 0)).toOption = some gUpd10 ∧
    (gUpd10.g.nodeWeight 0).isSome = true ∧
    (gUpd10.g.edges.filter (incTo 0)).length = 2 ∧
    gUpd10.remove_node 0 = none :=
  ⟨rfl, rfl, rfl, by decide, by decide, rfl⟩

/-- C7, amended: for every **coherent** graph (`WF`: key/handle bijection,
duplicate-free live edge ids, no self-loops, live endpoints, pointwise
symmetric and sound edge index maps, fresh node and edge counters — an
invariant of `add_node` on fresh keys and `add_edge`, established below by
`wf_new`/`wf_add_node`/`wf_add_edge`, but *not* preserved by `update_edge`
on parallel edges (C2) nor by `remove_node` itself, which leaves a stale
key (C10)) and every live node `n`, `remove_node(n)` returns normally,
vacates the slot, removes exactly the edges incident to `n`, drops
`get_size` by the number of incident edges, and drops every other node's
`degree_of` by exactly the number of edges that existed between it and `n`
(parallel edges counted individually). -/
theorem c7_remove_node_removes_incident_edges (g : Graph) (hwf : WF g)
    (n : Nat) (nd : Node) (hn : g.g.nodeWeight n = some nd) :
    ∃ gr, g.remove_node n = some gr ∧
      gr.g.nodeWeight n = none ∧
      gr.g.edges = g.g.edges.filter (fun e => !(incTo n e)) ∧
      gr.get_size + (g.g.edges.filter (incTo n)).length = g.get_size ∧
      (∀ mname midx, g.node_idx_map mname = some midx → midx ≠ n →
        gr.degree_of mname + (edgesBetween g.g midx n).length
          = g.degree_of mname) := by
  have hname_map : g.node_idx_map nd.name = some n :=
    (hwf.keyBij nd.name n).mpr ⟨nd, hn, rfl⟩
  have hgn : g.get_neighbors_idx nd.name = some (g.g.neighborsUndirected n) := by
    unfold Graph.get_neighbors_idx
    rw [hname_map]
    rfl
  obtain ⟨g1, hloop, hwf1, hed1, hmap1, hname1⟩ :=
    removeNodeLoop_spec nd.name n (g.g.neighborsUndirected n) g hwf hname_map
      (List.Perm.refl _)
  have hedges2 : ({ g1 with g := g1.g.removeNode n } : Graph).g.edges
      = g.g.edges.filter (fun e => !(incTo n e)) := by
    show g1.g.edges.filter (fun e => e.node0 != n && e.node1 != n)
      = g.g.edges.filter (fun e => !(incTo n e))
    rw [← hed1]
    refine List.filter_eq_self.mpr ?_
    intro y hy
    rw [hed1] at hy
    have hni := List.of_mem_filter hy
    rw [Bool.not_eq_true'] at hni
    rw [incTo, Bool.or_eq_false_iff] at hni
    simp only [bne, hni.1, hni.2, Bool.not_false, Bool.and_self]
  refine ⟨{ g1 with g := g1.g.removeNode n }, ?_, ?_, hedges2, ?_, ?_⟩
  · unfold Graph.remove_node
    simp only [hn, hgn, hloop]
  · exact PGraph.nodeWeight_removeNode_self g1.g n
  · show (({ g1 with g := g1.g.removeNode n } : Graph).g.edges).length
      + (g.g.edges.filter (incTo n)).length = g.g.edges.length
    rw [hedges2]
    have hp := (List.filter_append_perm (incTo n) g.g.edges).length_eq
    rw [List.length_append] at hp
    omega
  · intro mname midx hm hmn
    have hm2 : g1.node_idx_map mname = some midx := by
      rw [hmap1]
      exact hm
    have hns2 : ∀ e ∈ ({ g1 with g := g1.g.removeNode n } : Graph).g.edges,
        e.node0 ≠ e.node1 := by
      intro e he
      rw [hedges2] at he
      exact hwf.noSelfLoop e (List.mem_of_mem_filter he)
    unfold Graph.degree_of
    simp only [hm2, hm]
    have hd2 : (({ g1 with g := g1.g.removeNode n } : Graph).g.neighborsUndirected
        midx).length
        = ((({ g1 with g := g1.g.removeNode n } : Graph).g.edges.filter
            (incTo midx)).length) := by
      have hlen := (neighbors_list_perm _ midx hns2).length_eq
      rw [List.length_map] at hlen
      exact hlen
    have hd1 : (g.g.neighborsUndirected midx).length
        = ((g.g.edges.filter (incTo midx)).length) := by
      have hlen := (neighbors_list_perm _ midx hwf.noSelfLoop).length_eq
      rw [List.length_map] at hlen
      exact hlen
    rw [hd1, hd2, hedges2]
    -- count: |filter incm (filter not-incn E)| + |between midx n| = |filter incm E|
    rw [filter_comm']
    have hsplit := (List.filter_append_perm (incTo n)
      (g.g.edges.filter (incTo midx))).length_eq
    rw [List.length_append] at hsplit
    have hB : ((g.g.edges.filter (incTo midx)).filter (incTo n)).length
        = (edgesBetween g.g midx n).length := by
      rw [List.filter_filter]
      unfold edgesBetween
      congr 1
      refine List.filter_congr ?_
      intro y _
      rw [Bool.and_comm]
      exact inc_and_inc_eq_between hmn
    omega

/-- `mapInsert` hits its key. -/
theorem mapInsert_same {α β : Type} [DecidableEq α] (m : α → Option β)
    (k : α) (v : β) : mapInsert m k v k = some v := by
  rw [mapInsert, if_pos rfl]

/-- Occupied slots sit below the slot counter. -/
theorem nodeWeight_lt_nextNode {pg : PGraph}
    (hfresh : ∀ p ∈ pg.nodes, p.1 < pg.nextNode) {j : Nat} {nd : Node}
    (h : pg.nodeWeight j = some nd) : j < pg.nextNode := by
  unfold PGraph.nodeWeight at h
  cases hf : pg.nodes.find? (fun p => p.1 == j) with
  | none => rw [hf] at h; cases h
  | some pr =>
      have hpj := List.find?_some hf
      rw [beq_iff_eq] at hpj
      rw [← hpj]
      exact hfresh pr (List.mem_of_find?_eq_some hf)

/-- `Graph::new` is coherent. -/
theorem wf_new : WF Graph.new := by
  refine ⟨?_, ?_, ?_, ?_, ?_, ?_, ?_, ?_⟩
  · intro s i
    constructor
    · intro h; exact absurd h (by simp [Graph.new])
    · rintro ⟨nd, hnd, -⟩
      exact absurd hnd (by simp [Graph.new, PGraph.empty, PGraph.nodeWeight])
  · simp [Graph.new, PGraph.empty]
  · intro e he; exact absurd he (by simp [Graph.new, PGraph.empty])
  · intro e he; exact absurd he (by simp [Graph.new, PGraph.empty])
  · intro a b; rfl
  · intro a b hab
    simp [Graph.new, PGraph.empty, edgesBetween]
  · intro p hp; exact absurd hp (by simp [Graph.new, PGraph.empty])
  · intro e he; exact absurd he (by simp [Graph.new, PGraph.empty])

/-- `add_node` with a fresh key preserves coherence. -/
theorem wf_add_node {g : Graph} (hwf : WF g) {name : String}
    (hfresh : g.node_idx_map name = none) : WF (g.add_node name).1 := by
  have hnw : ∀ j, (g.add_node name).1.g.nodeWeight j
      = if j = g.g.nextNode then some ⟨name, 0⟩ else g.g.nodeWeight j :=
    fun j => PGraph.nodeWeight_addNode g.g ⟨name, 0⟩ j
  refine ⟨?_, hwf.eidNodup, hwf.noSelfLoop, ?_, hwf.symmIdx, hwf.idxSound, ?_, ?_⟩
  · intro s i
    show mapInsert g.node_idx_map name g.g.nextNode s = some i ↔ _
    by_cases hs : s = name
    · subst hs
      rw [mapInsert_same]
      constructor
      · intro h
        rw [Option.some_inj] at h
        subst h
        exact ⟨⟨s, 0⟩, by rw [hnw, if_pos rfl], rfl⟩
      · rintro ⟨nd, hnd, hname⟩
        rw [hnw] at hnd
        by_cases hi : i = g.g.nextNode
        · rw [hi]
        · rw [if_neg hi] at hnd
          exact absurd ((hwf.keyBij s i).mpr ⟨nd, hnd, hname⟩)
            (by rw [hfresh]; simp)
    · rw [mapInsert_ne _ _ hs, hwf.keyBij s i]
      constructor
      · rintro ⟨nd, hnd, hname⟩
        refine ⟨nd, ?_, hname⟩
        rw [hnw, if_neg ?_]
        · exact hnd
        · intro hi
          rw [hi] at hnd
          exact absurd (nodeWeight_lt_nextNode hwf.freshNode hnd)
            (lt_irrefl g.g.nextNode)
      · rintro ⟨nd, hnd, hname⟩
        rw [hnw] at hnd
        by_cases hi : i = g.g.nextNode
        · rw [if_pos hi] at hnd
          rw [Option.some_inj] at hnd
          rw [← hnd] at hname
          exact absurd hname.symm hs
        · rw [if_neg hi] at hnd
          exact ⟨nd, hnd, hname⟩
  · intro e he
    obtain ⟨h0, h1⟩ := hwf.edgeEnds e he
    constructor <;> rw [hnw] <;> split <;> simp_all
  · intro pr hpr
    show pr.1 < g.g.nextNode + 1
    rcases List.mem_cons.mp hpr with rfl | hmem
    · exact Nat.lt_succ_self _
    · exact Nat.lt_succ_of_lt (hwf.freshNode pr hmem)
  · exact hwf.freshEdge

/-- `add_edge` between two distinct existing keys preserves coherence. -/
theorem wf_add_edge {g g' : Graph} (hwf : WF g) {u v : String} {w : Weight}
    (huv : u ≠ v) (hr : (g.add_edge u v w).toOption = some g') : WF g' := by
  unfold Graph.add_edge at hr
  cases hu : g.node_idx_map u with
  | none =>
      simp only [hu, RustResult.toOption, Option.some_inj] at hr
      exact hr ▸ hwf
  | some p =>
    simp only [hu] at hr
    cases hv : g.node_idx_map v with
    | none =>
        simp only [hv, RustResult.toOption, Option.some_inj] at hr
        exact hr ▸ hwf
    | some q =>
      simp only [hv] at hr
      obtain ⟨ndu, hndu, hnameu⟩ := (hwf.keyBij u p).mp hu
      obtain ⟨ndv, hndv, hnamev⟩ := (hwf.keyBij v q).mp hv
      have hpq : p ≠ q := by
        intro hc
        rw [hc, hndv, Option.some_inj] at hndu
        rw [hndu] at hnamev
        exact huv (hnameu.symm.trans hnamev)
      have hadd : g.g.addEdge p q w = some ({ g.g with edges := ⟨g.g.nextEdge, p, q, w⟩ :: g.g.edges, nextEdge := g.g.nextEdge + 1 }, g.g.nextEdge) := by
        unfold PGraph.addEdge
        rw [hndu, hndv]
      simp only [hadd] at hr
      obtain ⟨em, nm, ed, nn, ne2, nname, nis, nkeys⟩ := changeBothOk_parts hr
      have hedges : g'.g.edges
          = ⟨g.g.nextEdge, p, q, w⟩ :: g.g.edges := ed
      have hnm : g'.node_idx_map = g.node_idx_map := nm
      have hnn : g'.g.nextNode = g.g.nextNode := nn
      have hne2 : g'.g.nextEdge = g.g.nextEdge + 1 := ne2
      have hnkeys : g'.g.nodes.map (·.1) = g.g.nodes.map (·.1) := nkeys
      have hnname : ∀ j, (g'.g.nodeWeight j).map Node.name
          = (g.g.nodeWeight j).map Node.name := nname
      have hnis : ∀ j, (g'.g.nodeWeight j).isSome = (g.g.nodeWeight j).isSome := nis
      have hqp_ne : ((q, p) : Nat × Nat) ≠ (p, q) := by
        rw [Ne, Prod.mk.injEq]
        rintro ⟨h1, -⟩
        exact hpq h1.symm
      refine ⟨keyBij_transfer hwf.keyBij hnm hnname, ?_, ?_, ?_, ?_, ?_, ?_, ?_⟩
      · rw [hedges, List.map_cons, List.nodup_cons]
        refine ⟨?_, hwf.eidNodup⟩
        intro hmem
        obtain ⟨y, hy, hyeid⟩ := List.mem_map.mp hmem
        exact absurd (hyeid ▸ hwf.freshEdge y hy) (lt_irrefl _)
      · intro e he
        rw [hedges] at he
        rcases List.mem_cons.mp he with rfl | he'
        · exact hpq
        · exact hwf.noSelfLoop e he'
      · intro e he
        rw [hedges] at he
        rcases List.mem_cons.mp he with rfl | he'
        · constructor
          · rw [hnis]
            show (g.g.nodeWeight p).isSome = true
            rw [hndu]
            rfl
          · rw [hnis]
            show (g.g.nodeWeight q).isSome = true
            rw [hndv]
            rfl
        · obtain ⟨h0, h1⟩ := hwf.edgeEnds e he'
          exact ⟨by rw [hnis]; exact h0, by rw [hnis]; exact h1⟩
      · have hrfull : (g.add_edge u v w).toOption = some g' := by
          unfold Graph.add_edge
          simp only [hu, hv, hadd]
          exact hr
        exact symIdx_add_edge hwf.symmIdx hrfull
      · intro a b hab
        have hem2 : g'.edge_idx_map
            = mapInsert (mapInsert g.edge_idx_map (p, q)
                ((g.edge_idx_map (p, q)).getD [] ++ [g.g.nextEdge])) (q, p)
              (((mapInsert g.edge_idx_map (p, q)
                ((g.edge_idx_map (p, q)).getD [] ++ [g.g.nextEdge])) (q, p)).getD []
                ++ [g.g.nextEdge]) := em
        rw [hem2]
        by_cases h1 : ((a, b) : Nat × Nat) = (p, q)
        · rw [Prod.mk.injEq] at h1
          obtain ⟨rfl, rfl⟩ := h1
          rw [mapInsert_ne _ _ (Ne.symm hqp_ne), mapInsert_same, Option.getD_some]
          have hcons : edgesBetween g'.g a b
              = (⟨g.g.nextEdge, a, b, w⟩ : PEdge) :: edgesBetween g.g a b := by
            show List.filter _ g'.g.edges = _
            rw [hedges, List.filter_cons_of_pos (by simp)]
            rfl
          rw [hcons, List.map_cons]
          exact (List.perm_append_singleton _ _).trans
            ((hwf.idxSound a b hab).cons _)
        · by_cases h2 : ((a, b) : Nat × Nat) = (q, p)
          · rw [Prod.mk.injEq] at h2
            obtain ⟨rfl, rfl⟩ := h2
            rw [mapInsert_same, Option.getD_some, mapInsert_ne _ _ hqp_ne]
            have hcons : edgesBetween g'.g a b
                = (⟨g.g.nextEdge, b, a, w⟩ : PEdge) :: edgesBetween g.g a b := by
              show List.filter _ g'.g.edges = _
              rw [hedges, List.filter_cons_of_pos (by simp)]
              rfl
            rw [hcons, List.map_cons]
            exact (List.perm_append_singleton _ _).trans
              ((hwf.idxSound a b hab).cons _)
          · rw [mapInsert_ne _ _ h2, mapInsert_ne _ _ h1]
            have hcons : edgesBetween g'.g a b = edgesBetween g.g a b := by
              show List.filter _ g'.g.edges = List.filter _ g.g.edges
              rw [hedges, List.filter_cons_of_neg ?_]
              rw [Prod.mk.injEq] at h1 h2
              simp only [Bool.or_eq_true, Bool.and_eq_true, beq_iff_eq, not_or,
                not_and]
              constructor
              · intro hpa hqb
                exact h1 ⟨hpa.symm, hqb.symm⟩
              · intro hpb hqa
                exact h2 ⟨hqa.symm, hpb.symm⟩
            rw [hcons]
            exact hwf.idxSound a b hab
      · intro pr hpr
        have hmem : pr.1 ∈ g'.g.nodes.map (·.1) := List.mem_map_of_mem _ hpr
        rw [hnkeys] at hmem
        obtain ⟨pr0, hpr0, hfst⟩ := List.mem_map.mp hmem
        rw [hnn, ← hfst]
        exact hwf.freshNode pr0 hpr0
      · intro e he
        rw [hedges] at he
        rw [hne2]
        rcases List.mem_cons.mp he with rfl | he'
        · exact Nat.lt_succ_self _
        · exact Nat.lt_succ_of_lt (hwf.freshEdge e he')

/-- Witness for C7: in the concrete graph with nodes u, v, w and three
edges (two parallel u-v edges and one u-w edge), removing u removes all
three edges and reduces the neighbours' degrees accordingly. -/
theorem c7_remove_node_removes_incident_edges_witness :
    c7g.g.nodeWeight 0 = some ⟨"u", 6⟩ ∧
    ∃ gr, c7g.remove_node 0 = some gr ∧
      gr.g.nodeWeight 0 = none ∧
      gr.g.edges = c7g.g.edges.filter (fun e => !(incTo 0 e)) ∧
      gr.get_size + (c7g.g.edges.filter (incTo 0)).length = c7g.get_size ∧
      (∀ mname midx, c7g.node_idx_map mname = some midx → midx ≠ 0 →
        gr.degree_of mname + (edgesBetween c7g.g midx 0).length
          = c7g.degree_of mname) := by
  have hf1 : Graph.new.node_idx_map "u" = none := rfl
  have hf2 : (Graph.new.add_node "u").1.node_idx_map "v" = none := rfl
  have hf3 : ((Graph.new.add_node "u").1.add_node "v").1.node_idx_map "w"
      = none := rfl
  have h1 : WF gUVW :=
    wf_add_node (wf_add_node (wf_add_node wf_new hf1) hf2) hf3
  have hr1 : (gUVW.add_edge "u" "v" (1 : Weight)).toOption = some c7g1 := rfl
  have hr2 : (c7g1.add_edge "u" "v" (2 : Weight)).toOption = some c7g2 := rfl
  have hr3 : (c7g2.add_edge "u" "w" (3 : Weight)).toOption = some c7g := rfl
  have h2 : WF c7g1 := wf_add_edge h1 (by decide) hr1
  have h3 : WF c7g2 := wf_add_edge h2 (by decide) hr2
  have h4 : WF c7g := wf_add_edge h3 (by decide) hr3
  exact ⟨rfl, c7_remove_node_removes_incident_edges c7g h4 0 ⟨"u", 6⟩ rfl⟩

end Meshtastic
